import Mathlib

/-!
# Shallow embedding of `Graph_CSP/graph_csp.py`

This file embeds the core CSP solving engine of the repository
(`revise`, `ac3`, `select_unassigned_variable`, `order_domain_values`,
`backtrack`, `solve_graph_coloring`) and proves the specified properties
about it.

Modelling conventions:
* Variables and colors are integers (`ℤ`), matching Python's `int`.
* A domain store is a total function `ℤ → Finset ℤ`; the Python `domains`
  dict has exactly the variable list as its key set, so a lookup of a
  non-variable raises `KeyError`.  Every operation that performs such a
  lookup in Python therefore carries an explicit `vars` membership check
  and returns a `crash` outcome (modelling the uncaught `KeyError`) when
  it fails.
* The trail is a list with the most recent entry first (Python appends to
  and pops from the end of a list, i.e. uses it as a stack).
* `ac3` and `backtrack` are given explicit fuel; fuel exhaustion is a
  separate outcome (`fuelout`) and is proved unreachable for the fuel
  amounts the solver passes.  Python's recursion has no fuel, so any
  theorem about an actual outcome of the solver is accompanied by a proof
  that `fuelout` does not occur.
-/

namespace GraphCSP

/-- A domain store: per-variable candidate color set (`domains` dict). -/
abbrev Dom := ℤ → Finset ℤ

/-- A partial assignment (`assignment` dict). -/
abbrev Assign := ℤ → Option ℤ

/-- The undo trail, most recent entry first (`trail` list). -/
abbrev Trail := List (ℤ × ℤ)

/-- An arc `(Xi, Xj)`: revise `Xi`'s domain against `Xj`'s. -/
abbrev Arc := ℤ × ℤ

/-- Outcome of the AC-3 engine: `crash` models an uncaught Python
`KeyError` (domain lookup of a non-variable), `fuelout` is fuel
exhaustion of the embedding, `done b doms trail` is a normal boolean
return with the final mutable state. -/
inductive AC3Out where
  | crash : AC3Out
  | fuelout : AC3Out
  | done : Bool → Dom → Trail → AC3Out

/-- Outcome of `backtrack`. -/
inductive BTOut where
  | crash : BTOut
  | fuelout : BTOut
  | done : Bool → Dom → Assign → Trail → BTOut

/-- Outcome of `solve_graph_coloring`: `failure` is Python's `return None`,
`success a` is a returned assignment mapping. -/
inductive SolveOut where
  | crash : SolveOut
  | fuelout : SolveOut
  | failure : SolveOut
  | success : Assign → SolveOut

/-- Executable test for the failure signal (`SolveOut.isFailure`). -/
def SolveOut.isFailure : SolveOut → Bool
  | .failure => true
  | _ => false

/-- Executable test for a returned mapping (`SolveOut.isSuccess`). -/
def SolveOut.isSuccess : SolveOut → Bool
  | .success _ => true
  | _ => false

/-- Color the returned mapping gives `v` (`SolveOut.color v`)
(`none` when the outcome is not a success or `v` is unassigned). -/
def SolveOut.color : SolveOut → ℤ → Option ℤ
  | .success a, v => a v
  | _, _ => none

/-- Embeds `revise(X, Y, domains, adj, trail)` (graph_csp.py lines 58-77).

Removes from `X`'s domain every value `x` such that `Y`'s domain is the
singleton `{x}` (`len(domY) == 1 and next(iter(domY)) == x`), pushing each
removed pair onto the trail; returns whether anything was removed.
Python looks `domains[X]` and `domains[Y]` up unconditionally, so the
embedding crashes (`none`) when either is not a variable. -/
def revise (vars : List ℤ) (X Y : ℤ) (doms : Dom) (trail : Trail) :
    Option (Bool × Dom × Trail) :=
  if X ∈ vars ∧ Y ∈ vars then
    let domX := doms X
    let domY := doms Y
    let toRemove := domX.filter (fun x => domY.card = 1 ∧ x ∈ domY)
    if toRemove.Nonempty then
      some (true, Function.update doms X (domX \ toRemove),
        (toRemove.sort (· ≤ ·)).foldl (fun t val => (X, val) :: t) trail)
    else
      some (false, doms, trail)
  else none

/-- The AC-3 loop (graph_csp.py lines 79-94) with explicit fuel, consumed
once per popped arc.  An empty queue returns `true` regardless of fuel
(the Python `while` loop just ends). -/
def ac3Fuel (vars : List ℤ) (adj : ℤ → List ℤ) :
    ℕ → List Arc → Dom → Trail → AC3Out
  | _, [], doms, trail => .done true doms trail
  | 0, _ :: _, _, _ => .fuelout
  | fuel + 1, (Xi, Xj) :: q, doms, trail =>
    match revise vars Xi Xj doms trail with
    | none => .crash
    | some (revised, doms1, trail1) =>
      if revised then
        if (doms1 Xi).card = 0 then .done false doms1 trail1
        else
          ac3Fuel vars adj fuel
            (q ++ ((adj Xi).filter (fun Xk => Xk ≠ Xj)).map (fun Xk => (Xk, Xi)))
            doms1 trail1
      else ac3Fuel vars adj fuel q doms1 trail1

/-- The largest neighbor-list length over the variable list; bounds how
many arcs one revision can enqueue. -/
def maxDeg (vars : List ℤ) (adj : ℤ → List ℤ) : ℕ :=
  vars.foldr (fun v m => max (adj v).length m) 0

/-- Total size of all domains over the variable list. -/
def domSize (vars : List ℤ) (doms : Dom) : ℕ :=
  (vars.map (fun v => (doms v).card)).sum

/-- A provably sufficient fuel amount for `ac3Fuel` on well-formed arcs:
each step either consumes an arc without revising or strictly shrinks
some variable's domain while enqueuing at most `maxDeg` arcs. -/
def ac3Bound (vars : List ℤ) (adj : ℤ → List ℤ) (q : List Arc) (doms : Dom) : ℕ :=
  (maxDeg vars adj + 2) * domSize vars doms + q.length + 1

/-- Runs `ac3Fuel` at the sufficient bound, as the solver calls it. -/
def ac3Auto (vars : List ℤ) (adj : ℤ → List ℤ) (q : List Arc) (doms : Dom)
    (trail : Trail) : AC3Out :=
  ac3Fuel vars adj (ac3Bound vars adj q doms) q doms trail

/-- The rollback loop of `backtrack` (graph_csp.py lines 156-159):
`while len(trail) > mark: pop (v, val); reinsert val into domains[v]`.
(The `if val not in domains[v]` guard is the identity on sets, since
`insert` is idempotent.) -/
def restoreTo (mark : ℕ) : Dom → Trail → Dom × Trail
  | doms, [] => (doms, [])
  | doms, (v, val) :: rest =>
    if mark < rest.length + 1 then
      restoreTo mark (Function.update doms v (insert val (doms v))) rest
    else (doms, (v, val) :: rest)

/-- The singleton-forcing loop of `backtrack` (graph_csp.py lines 139-142):
remove every value other than `value` from `var`'s domain, trailing each
removal.  Only called with `var` a variable, so no lookup failure is
modelled. -/
def forceSingleton (var value : ℤ) (doms : Dom) (trail : Trail) : Dom × Trail :=
  let others := (doms var).erase value
  (Function.update doms var ((doms var) \ others),
    (others.sort (· ≤ ·)).foldl (fun t v => (var, v) :: t) trail)

/-- Number of assigned variables: `len(assignment)`.  In every reachable
state the assignment's key set is contained in the (duplicate-free)
variable list, so this equals the Python dict size. -/
def assignedCount (vars : List ℤ) (assign : Assign) : ℕ :=
  vars.countP (fun v => (assign v).isSome)

/-- One step of selecting the lexicographically least `(size, var)`
candidate pair (Python's tuple order in `candidates.sort()`). -/
def pickMin (best d : ℕ × ℤ) : ℕ × ℤ :=
  if d.1 < best.1 ∨ (d.1 = best.1 ∧ d.2 < best.2) then d else best

/-- Embeds `select_unassigned_variable(domains, assignment)` (graph_csp.py lines
97-109).  Builds `(len(dom), var)` candidate pairs over the variable list
(the dict iteration order) for unassigned variables and returns the
variable of the lexicographically least pair, i.e. `candidates[0][1]`
after `candidates.sort()`. -/
def selectVar (vars : List ℤ) (doms : Dom) (assign : Assign) : Option ℤ :=
  match (vars.filter (fun v => (assign v).isNone)).map (fun v => ((doms v).card, v)) with
  | [] => none
  | c :: cs => some (cs.foldl pickMin c).2

/-- Elimination count of `val` for `var` (graph_csp.py lines 119-124):
the number of not-yet-assigned neighbors whose domain contains `val`. -/
def elimCount (adj : ℤ → List ℤ) (doms : Dom) (assign : Assign)
    (var val : ℤ) : ℕ :=
  ((adj var).filter (fun nb => (assign nb).isNone && decide (val ∈ doms nb))).length

/-- Lexicographic comparison of `(eliminated, val)` pairs, as Python's
tuple comparison in `counts.sort()`. -/
def keyLe (a b : ℕ × ℤ) : Prop :=
  a.1 < b.1 ∨ (a.1 = b.1 ∧ a.2 ≤ b.2)

instance : DecidableRel keyLe := fun a b => by
  unfold keyLe; infer_instance

/-- Embeds `order_domain_values(var, domains, adj, assignment)` (graph_csp.py
lines 111-127): the values of `var`'s domain sorted ascending by
`(elimination count, value)`.  Python looks up `domains[var]` and, for
each unassigned neighbor `nb`, `domains[nb]`; the embedding crashes
(`none`) when such a lookup would raise `KeyError`. -/
def orderVals (vars : List ℤ) (adj : ℤ → List ℤ) (var : ℤ) (doms : Dom)
    (assign : Assign) : Option (List ℤ) :=
  if var ∈ vars ∧ ∀ nb ∈ adj var, (assign nb).isNone = true → nb ∈ vars then
    let domain := (doms var).sort (· ≤ ·)
    let counts := domain.map (fun val => (elimCount adj doms assign var val, val))
    some ((counts.insertionSort keyLe).map Prod.snd)
  else none

/-- The `for value in order_domain_values(...)` loop body of `backtrack`
(graph_csp.py lines 137-161), with the recursive `backtrack` call
abstracted as the continuation `bt`. -/
def tryValuesGo (vars : List ℤ) (adj : ℤ → List ℤ)
    (bt : Dom → Assign → Trail → BTOut) (var : ℤ) :
    List ℤ → Dom → Assign → Trail → BTOut
  | [], doms, _assign, trail => .done false doms _assign trail
  | value :: rest, doms, assign, trail =>
    let snapshot := trail.length
    let fr := forceSingleton var value doms trail
    let assign1 := Function.update assign var (some value)
    let queue := (adj var).map (fun nb => (nb, var))
    match ac3Auto vars adj queue fr.1 fr.2 with
    | .crash => .crash
    | .fuelout => .fuelout
    | .done consistent doms2 trail2 =>
      if consistent then
        if vars.any (fun x => (doms2 x).card == 0) then
          let r := restoreTo snapshot doms2 trail2
          tryValuesGo vars adj bt var rest r.1 assign r.2
        else
          match bt doms2 assign1 trail2 with
          | .crash => .crash
          | .fuelout => .fuelout
          | .done true doms3 assign3 trail3 => .done true doms3 assign3 trail3
          | .done false doms3 _assign3 trail3 =>
            let r := restoreTo snapshot doms3 trail3
            tryValuesGo vars adj bt var rest r.1 assign r.2
      else
        let r := restoreTo snapshot doms2 trail2
        tryValuesGo vars adj bt var rest r.1 assign r.2

/-- Embeds `backtrack(domains, adj, assignment, trail)` (graph_csp.py lines
129-162), with explicit recursion-depth fuel. -/
def backtrackFuel (vars : List ℤ) (adj : ℤ → List ℤ) :
    ℕ → Dom → Assign → Trail → BTOut
  | 0, _, _, _ => .fuelout
  | fuel + 1, doms, assign, trail =>
    if assignedCount vars assign = vars.length then .done true doms assign trail
    else
      match selectVar vars doms assign with
      | none => .done false doms assign trail
      | some var =>
        match orderVals vars adj var doms assign with
        | none => .crash
        | some values =>
          tryValuesGo vars adj (backtrackFuel vars adj fuel) var values doms assign trail

/-- The completion loop of `solve_graph_coloring` (graph_csp.py lines
188-193): any variable still unassigned takes the minimum of its
(nonempty) domain; an empty domain aborts with `None`. -/
def finalize (doms : Dom) : List ℤ → Assign → SolveOut
  | [], assign => .success assign
  | v :: rest, assign =>
    match assign v with
    | some _ => finalize doms rest assign
    | none =>
      if h : (doms v).Nonempty then
        finalize doms rest (Function.update assign v (some ((doms v).min' h)))
      else .failure

/-- The initial propagation queue of `solve_graph_coloring` (graph_csp.py
lines 172-175): one arc `(Xi, Xj)` per `Xi` in variable order and `Xj`
in its neighbor list. -/
def initQueue (vars : List ℤ) (adj : ℤ → List ℤ) : List Arc :=
  (vars.map (fun Xi => (adj Xi).map (fun Xj => (Xi, Xj)))).flatten

/-- Embeds `solve_graph_coloring(k, variables, adj)` (graph_csp.py lines
164-194): initial domains `{1..k}`, AC-3 preprocessing, empty-domain
check, backtracking search, completion of the assignment. -/
def solve_graph_coloring (k : ℤ) (vars : List ℤ) (adj : ℤ → List ℤ) : SolveOut :=
  let doms0 : Dom := fun v => if v ∈ vars then Finset.Icc 1 k else ∅
  match ac3Auto vars adj (initQueue vars adj) doms0 [] with
  | .crash => .crash
  | .fuelout => .fuelout
  | .done ok doms1 trail1 =>
    if !ok then .failure
    else if vars.any (fun v => (doms1 v).card == 0) then .failure
    else
      match backtrackFuel vars adj (vars.length + 1) doms1 (fun _ => none) trail1 with
      | .crash => .crash
      | .fuelout => .fuelout
      | .done success doms2 assign2 _trail2 =>
        if success then finalize doms2 vars assign2 else .failure

/-- A sequence of domain removals starting from a given state, made of
`revise` steps, singleton forcings, and whole AC-3 runs — the forward
work the search controller performs between recording a mark and rolling
back to it. -/
inductive RemSeq (vars : List ℤ) (adj : ℤ → List ℤ) :
    Dom → Trail → Dom → Trail → Prop where
  | refl (d : Dom) (t : Trail) : RemSeq vars adj d t d t
  | revise_step {X Y : ℤ} {d : Dom} {t : Trail} {b : Bool} {d1 : Dom} {t1 : Trail}
      {d2 : Dom} {t2 : Trail} :
      revise vars X Y d t = some (b, d1, t1) →
      RemSeq vars adj d1 t1 d2 t2 → RemSeq vars adj d t d2 t2
  | force_step {var value : ℤ} {d : Dom} {t : Trail} {d2 : Dom} {t2 : Trail} :
      RemSeq vars adj (forceSingleton var value d t).1 (forceSingleton var value d t).2 d2 t2 →
      RemSeq vars adj d t d2 t2
  | ac3_step {n : ℕ} {q : List Arc} {d : Dom} {t : Trail} {b : Bool}
      {d1 : Dom} {t1 : Trail} {d2 : Dom} {t2 : Trail} :
      ac3Fuel vars adj n q d t = .done b d1 t1 →
      RemSeq vars adj d1 t1 d2 t2 → RemSeq vars adj d t d2 t2

/-- A valid `k`-coloring of the input graph: every variable gets a color
in `[1, k]` and adjacent vertices get different colors. -/
def ValidColoring (k : ℤ) (vars : List ℤ) (adj : ℤ → List ℤ) (c : ℤ → ℤ) : Prop :=
  (∀ v ∈ vars, c v ∈ Finset.Icc 1 k) ∧ ∀ u w, w ∈ adj u → c u ≠ c w

/-- The structural invariants the spec's §3/§6 require of core inputs:
a duplicate-free variable set, adjacency mapping variables to variables,
symmetric, without self-loops, and empty outside the variable set. -/
def GraphWF (vars : List ℤ) (adj : ℤ → List ℤ) : Prop :=
  vars.Nodup ∧
  (∀ v w, w ∈ adj v → w ∈ vars) ∧
  (∀ u w, w ∈ adj u → u ∈ adj w) ∧
  (∀ v, v ∉ adj v) ∧
  (∀ v, v ∉ vars → adj v = [])

/-- The search-state invariant maintained by `backtrack`: domains stay
inside `[1, k]`, assigned variables are variables whose domain has been
forced to the singleton of their color, domains of variables are
nonempty, assigned neighbors have distinct colors, and the color of an
assigned variable has been pruned from every unassigned neighbor's
domain. -/
def SearchInv (k : ℤ) (vars : List ℤ) (adj : ℤ → List ℤ)
    (doms : Dom) (assign : Assign) : Prop :=
  (∀ v ∈ vars, doms v ⊆ Finset.Icc 1 k) ∧
  (∀ v, (assign v).isSome = true → v ∈ vars) ∧
  (∀ v c, assign v = some c → doms v = {c}) ∧
  (∀ v ∈ vars, (doms v).Nonempty) ∧
  (∀ u w cu cw, w ∈ adj u → assign u = some cu → assign w = some cw → cu ≠ cw) ∧
  (∀ u w c, w ∈ adj u → assign w = some c → assign u = none → c ∉ doms u)

instance : IsTrans (ℕ × ℤ) keyLe :=
  ⟨by intro a b c hab hbc; unfold keyLe at *; omega⟩

instance : IsTotal (ℕ × ℤ) keyLe :=
  ⟨by intro a b; unfold keyLe; omega⟩

/-- Concrete domain store used to exercise `revise`: variable 2 has the
singleton domain `{5}`, everything else `{5, 7}`. -/
def dWa : Dom := fun v => if v = 2 then {5} else {5, 7}

/-- Concrete domain store where all domains are `{5}` (revising empties). -/
def dWb : Dom := fun _ => {5}

/-- Concrete domain store with all domains `{1, 2}`. -/
def dWc : Dom := fun _ => {1, 2}

/-- Adjacency of a single undirected edge 1—2. -/
def adjEdge : ℤ → List ℤ := fun v => if v = 1 then [2] else if v = 2 then [1] else []

/-- Adjacency of the triangle 1—2—3. -/
def adjTriangle : ℤ → List ℤ :=
  fun v => if v = 1 then [2, 3] else if v = 2 then [1, 3] else if v = 3 then [1, 2] else []

/-- The everywhere-unassigned assignment. -/
def assignNone : Assign := fun _ => none

/-! ## Theorems -/

section Theorems

variable {vars : List ℤ} {adj : ℤ → List ℤ} {doms d d' d1 d2 : Dom}
variable {assign : Assign} {trail t t' t1 t2 : Trail} {X Y : ℤ} {b : Bool}

/-! ### `revise` characterization -/

theorem toRemove_of_singleton {s t : Finset ℤ} {y : ℤ} (hsing : t = {y}) (hmem : y ∈ s) :
    s.filter (fun x => t.card = 1 ∧ x ∈ t) = {y} := by
  subst hsing
  ext x
  simp only [Finset.mem_filter, Finset.card_singleton, Finset.mem_singleton, true_and]
  exact ⟨fun h => h.2, fun h => ⟨h ▸ hmem, h⟩⟩

theorem toRemove_of_no_singleton {s t : Finset ℤ} (h : ∀ y, t = {y} → y ∉ s) :
    s.filter (fun x => t.card = 1 ∧ x ∈ t) = ∅ := by
  ext x
  simp only [Finset.mem_filter, Finset.not_mem_empty, iff_false, not_and]
  intro hxs hcard
  obtain ⟨y, hy⟩ := Finset.card_eq_one.mp hcard
  intro hxt
  rw [hy, Finset.mem_singleton] at hxt
  exact h y hy (hxt ▸ hxs)

theorem revise_of_singleton {y : ℤ} (hX : X ∈ vars) (hY : Y ∈ vars)
    (hsing : doms Y = {y}) (hmem : y ∈ doms X) :
    revise vars X Y doms trail =
      some (true, Function.update doms X ((doms X).erase y), (X, y) :: trail) := by
  simp only [revise, if_pos (⟨hX, hY⟩ : X ∈ vars ∧ Y ∈ vars),
    toRemove_of_singleton hsing hmem, Finset.singleton_nonempty, if_pos,
    Finset.sort_singleton, List.foldl_cons, List.foldl_nil, ← Finset.erase_eq]

theorem revise_of_no_singleton (hX : X ∈ vars) (hY : Y ∈ vars)
    (h : ∀ y, doms Y = {y} → y ∉ doms X) :
    revise vars X Y doms trail = some (false, doms, trail) := by
  simp only [revise, if_pos (⟨hX, hY⟩ : X ∈ vars ∧ Y ∈ vars),
    toRemove_of_no_singleton h, Finset.not_nonempty_empty, if_false]

theorem revise_isSome_iff :
    (revise vars X Y doms trail).isSome = true ↔ X ∈ vars ∧ Y ∈ vars := by
  by_cases h : X ∈ vars ∧ Y ∈ vars
  · simp only [revise, if_pos h, h, iff_true]
    by_cases hne : ((doms X).filter (fun x => (doms Y).card = 1 ∧ x ∈ doms Y)).Nonempty <;>
      simp [hne]
  · simp [revise, if_neg h, h]

/-- Exhaustive case analysis of a non-crashing `revise`. -/
theorem revise_cases
    (h : revise vars X Y doms trail = some (b, d', t')) :
    X ∈ vars ∧ Y ∈ vars ∧
      ((b = false ∧ d' = doms ∧ t' = trail ∧ ∀ y, doms Y = {y} → y ∉ doms X) ∨
       (b = true ∧ ∃ y, doms Y = {y} ∧ y ∈ doms X ∧
         d' = Function.update doms X ((doms X).erase y) ∧ t' = (X, y) :: trail)) := by
  have hvars : X ∈ vars ∧ Y ∈ vars :=
    revise_isSome_iff.mp (by rw [h]; rfl)
  refine ⟨hvars.1, hvars.2, ?_⟩
  by_cases hs : ∃ y, doms Y = {y} ∧ y ∈ doms X
  · obtain ⟨y, hy, hmem⟩ := hs
    rw [revise_of_singleton hvars.1 hvars.2 hy hmem] at h
    refine Or.inr ⟨?_, y, hy, hmem, ?_, ?_⟩ <;>
      simp_all only [Option.some.injEq, Prod.mk.injEq]
  · push_neg at hs
    rw [revise_of_no_singleton hvars.1 hvars.2 hs] at h
    refine Or.inl ?_
    simp_all only [Option.some.injEq, Prod.mk.injEq]
    tauto

/-! ### Trail restoration -/

theorem restoreTo_of_length_le {mark : ℕ} (h : t.length ≤ mark) :
    restoreTo mark d t = (d, t) := by
  cases t with
  | nil => rfl
  | cons p rest =>
    obtain ⟨v, val⟩ := p
    rw [restoreTo, if_neg]
    simp only [List.length_cons] at h
    omega

theorem restoreTo_self (d : Dom) (t : Trail) : restoreTo t.length d t = (d, t) :=
  restoreTo_of_length_le le_rfl

/-- Restoring down to a lower mark factors through restoring to a higher
one. -/
theorem restoreTo_trans {mark mark' : ℕ} (h : mark ≤ mark') (d : Dom) (t : Trail) :
    restoreTo mark d t =
      restoreTo mark (restoreTo mark' d t).1 (restoreTo mark' d t).2 := by
  induction t generalizing d with
  | nil => rfl
  | cons p rest ih =>
    obtain ⟨v, val⟩ := p
    by_cases h' : mark' < rest.length + 1
    · have hm : mark < rest.length + 1 := lt_of_le_of_lt h h'
      have e1 : restoreTo mark' d ((v, val) :: rest) =
          restoreTo mark' (Function.update d v (insert val (d v))) rest := by
        rw [restoreTo, if_pos h']
      have e2 : restoreTo mark d ((v, val) :: rest) =
          restoreTo mark (Function.update d v (insert val (d v))) rest := by
        rw [restoreTo, if_pos hm]
      rw [e1, e2]
      exact ih _
    · have e1 : restoreTo mark' d ((v, val) :: rest) = (d, (v, val) :: rest) := by
        rw [restoreTo, if_neg h']
      rw [e1]

/-- Popping one trailed removal restores it exactly. -/
theorem restoreTo_push {v val : ℤ} (hmem : val ∈ d v) :
    restoreTo t.length (Function.update d v ((d v).erase val)) ((v, val) :: t) = (d, t) := by
  rw [restoreTo, if_pos (by omega)]
  rw [Function.update_same, Function.update_idem, Finset.insert_erase hmem,
    Function.update_eq_self]
  exact restoreTo_self _ _

/-- Removing a duplicate-free list of present values from one variable's
domain, trailing each removal, is undone exactly by popping back to the
mark. -/
theorem restoreTo_removeList {v : ℤ} (l : List ℤ) (hnd : l.Nodup)
    (hsub : ∀ x ∈ l, x ∈ d v) :
    restoreTo t.length (Function.update d v ((d v) \ l.toFinset))
      (l.foldl (fun acc x => (v, x) :: acc) t) = (d, t) := by
  induction l generalizing d t with
  | nil =>
    simp only [List.toFinset_nil, Finset.sdiff_empty, Function.update_eq_self,
      List.foldl_nil]
    exact restoreTo_self _ _
  | cons x rest ih =>
    have hx : x ∈ d v := hsub x (List.mem_cons_self x rest)
    have hrest : ∀ z ∈ rest, z ∈ (Function.update d v ((d v).erase x)) v := by
      intro z hz
      rw [Function.update_same, Finset.mem_erase]
      exact ⟨fun hzx => (List.nodup_cons.mp hnd).1 (hzx ▸ hz),
        hsub z (List.mem_cons_of_mem _ hz)⟩
    have hset : (d v) \ (x :: rest).toFinset = ((d v).erase x) \ rest.toFinset := by
      ext z
      simp only [List.toFinset_cons, Finset.mem_sdiff, Finset.mem_insert,
        Finset.mem_erase]
      tauto
    have key : Function.update d v ((d v) \ (x :: rest).toFinset) =
        Function.update (Function.update d v ((d v).erase x)) v
          (((Function.update d v ((d v).erase x)) v) \ rest.toFinset) := by
      rw [Function.update_same, Function.update_idem, hset]
    rw [List.foldl_cons, key]
    have hih := @ih (Function.update d v ((d v).erase x)) ((v, x) :: t)
      (List.nodup_cons.mp hnd).2 hrest
    have htrans := @restoreTo_trans (t.length) (t.length + 1)
      (Nat.le_succ _)
      (Function.update (Function.update d v ((d v).erase x)) v
        (((Function.update d v ((d v).erase x)) v) \ rest.toFinset))
      (rest.foldl (fun acc x => (v, x) :: acc) ((v, x) :: t))
    have hlen : ((v, x) :: t).length = t.length + 1 := rfl
    rw [hlen] at hih
    rw [htrans, hih]
    exact restoreTo_push hx

theorem restoreTo_removeFinset {v : ℤ} (S : Finset ℤ) (hsub : S ⊆ d v) :
    restoreTo t.length (Function.update d v ((d v) \ S))
      ((S.sort (· ≤ ·)).foldl (fun acc x => (v, x) :: acc) t) = (d, t) := by
  have h1 := restoreTo_removeList (d := d) (t := t) (v := v) (S.sort (· ≤ ·))
    (Finset.sort_nodup _ S)
    (fun x hx => hsub (by rwa [Finset.mem_sort] at hx))
  rwa [Finset.sort_toFinset] at h1

theorem foldl_push_eq_append {α β : Type} (f : α → β) (l : List α) (t : List β) :
    l.foldl (fun acc x => f x :: acc) t = (l.map f).reverse ++ t := by
  induction l generalizing t with
  | nil => rfl
  | cons x rest ih =>
    rw [List.foldl_cons, ih, List.map_cons, List.reverse_cons, List.append_assoc,
      List.singleton_append]

/-- Round trip of `revise`: popping the trail back to its pre-`revise` length
restores the exact pre-`revise` domains. -/
theorem revise_restores
    (h : revise vars X Y d t = some (b, d1, t1)) :
    restoreTo t.length d1 t1 = (d, t) := by
  obtain ⟨_, _, hcase⟩ := revise_cases h
  rcases hcase with ⟨_, rfl, rfl, _⟩ | ⟨_, y, _, hmem, rfl, rfl⟩
  · exact restoreTo_self _ _
  · exact restoreTo_push hmem

theorem revise_trail_extend
    (h : revise vars X Y d t = some (b, d1, t1)) :
    ∃ Δ, t1 = Δ ++ t := by
  obtain ⟨_, _, hcase⟩ := revise_cases h
  rcases hcase with ⟨_, rfl, rfl, _⟩ | ⟨_, y, _, _, rfl, rfl⟩
  · exact ⟨[], rfl⟩
  · exact ⟨[(X, y)], rfl⟩

theorem revise_doms_subset
    (h : revise vars X Y d t = some (b, d1, t1)) :
    ∀ v, d1 v ⊆ d v := by
  obtain ⟨_, _, hcase⟩ := revise_cases h
  rcases hcase with ⟨_, rfl, rfl, _⟩ | ⟨_, y, _, _, rfl, rfl⟩
  · exact fun v => le_rfl
  · intro v
    by_cases hv : v = X
    · subst hv
      rw [Function.update_same]
      exact Finset.erase_subset _ _
    · rw [Function.update_noteq hv]

theorem revise_doms_other
    (h : revise vars X Y d t = some (b, d1, t1)) :
    ∀ v, v ≠ X → d1 v = d v := by
  obtain ⟨_, _, hcase⟩ := revise_cases h
  rcases hcase with ⟨_, rfl, rfl, _⟩ | ⟨_, y, _, _, rfl, rfl⟩
  · exact fun v _ => rfl
  · exact fun v hv => Function.update_noteq hv _ _

/-- Round trip of `forceSingleton`. -/
theorem force_restores (var value : ℤ) (d : Dom) (t : Trail) :
    restoreTo t.length (forceSingleton var value d t).1 (forceSingleton var value d t).2 =
      (d, t) :=
  restoreTo_removeFinset _ (Finset.erase_subset _ _)

theorem force_trail_extend (var value : ℤ) (d : Dom) (t : Trail) :
    ∃ Δ, (forceSingleton var value d t).2 = Δ ++ t :=
  ⟨_, foldl_push_eq_append _ _ t⟩

/-- Composition of two exact restorations. -/
theorem restores_comp (hlen : t.length ≤ t1.length)
    (r2 : restoreTo t1.length d' t' = (d1, t1))
    (r1 : restoreTo t.length d1 t1 = (d, t)) :
    restoreTo t.length d' t' = (d, t) := by
  rw [restoreTo_trans hlen d' t', r2]
  exact r1

/-! ### AC-3: monotonicity, trail discipline, round trip -/

theorem ac3Fuel_doms_subset {n : ℕ} {q : List Arc}
    (h : ac3Fuel vars adj n q d t = .done b d' t') : ∀ v, d' v ⊆ d v := by
  induction n generalizing q d t with
  | zero =>
    cases q with
    | nil => cases h; exact fun v => le_rfl
    | cons a q => exact absurd h (by simp [ac3Fuel])
  | succ n ih =>
    cases q with
    | nil => cases h; exact fun v => le_rfl
    | cons a q =>
      obtain ⟨Xi, Xj⟩ := a
      simp only [ac3Fuel] at h
      cases hrev : revise vars Xi Xj d t with
      | none => rw [hrev] at h; cases h
      | some r =>
        obtain ⟨revised, d1, t1⟩ := r
        rw [hrev] at h
        simp only at h
        have hsub1 : ∀ v, d1 v ⊆ d v := revise_doms_subset hrev
        split at h
        · split at h
          · cases h; exact hsub1
          · exact fun v => (ih h v).trans (hsub1 v)
        · exact fun v => (ih h v).trans (hsub1 v)

theorem ac3Fuel_trail_extend {n : ℕ} {q : List Arc}
    (h : ac3Fuel vars adj n q d t = .done b d' t') : ∃ Δ, t' = Δ ++ t := by
  induction n generalizing q d t with
  | zero =>
    cases q with
    | nil => cases h; exact ⟨[], rfl⟩
    | cons a q => exact absurd h (by simp [ac3Fuel])
  | succ n ih =>
    cases q with
    | nil => cases h; exact ⟨[], rfl⟩
    | cons a q =>
      obtain ⟨Xi, Xj⟩ := a
      simp only [ac3Fuel] at h
      cases hrev : revise vars Xi Xj d t with
      | none => rw [hrev] at h; cases h
      | some r =>
        obtain ⟨revised, d1, t1⟩ := r
        rw [hrev] at h
        simp only at h
        obtain ⟨Δ1, hΔ1⟩ := revise_trail_extend hrev
        split at h
        · split at h
          · cases h; exact ⟨Δ1, hΔ1⟩
          · obtain ⟨Δ2, hΔ2⟩ := ih h
            exact ⟨Δ2 ++ Δ1, by rw [hΔ2, hΔ1, List.append_assoc]⟩
        · obtain ⟨Δ2, hΔ2⟩ := ih h
          exact ⟨Δ2 ++ Δ1, by rw [hΔ2, hΔ1, List.append_assoc]⟩

/-- AC-3 round trip: popping the trail back to its pre-call length
restores the exact pre-call domains. -/
theorem ac3Fuel_restores {n : ℕ} {q : List Arc}
    (h : ac3Fuel vars adj n q d t = .done b d' t') :
    restoreTo t.length d' t' = (d, t) := by
  induction n generalizing q d t with
  | zero =>
    cases q with
    | nil => cases h; exact restoreTo_self _ _
    | cons a q => exact absurd h (by simp [ac3Fuel])
  | succ n ih =>
    cases q with
    | nil => cases h; exact restoreTo_self _ _
    | cons a q =>
      obtain ⟨Xi, Xj⟩ := a
      simp only [ac3Fuel] at h
      cases hrev : revise vars Xi Xj d t with
      | none => rw [hrev] at h; cases h
      | some r =>
        obtain ⟨revised, d1, t1⟩ := r
        rw [hrev] at h
        simp only at h
        obtain ⟨Δ1, hΔ1⟩ := revise_trail_extend hrev
        have hlen : t.length ≤ t1.length := by
          rw [hΔ1, List.length_append]; omega
        split at h
        · split at h
          · cases h; exact revise_restores hrev
          · exact restores_comp hlen (ih h) (revise_restores hrev)
        · exact restores_comp hlen (ih h) (revise_restores hrev)

/-! ### AC-3: crash freedom and termination -/

theorem maxDeg_le {v : ℤ} (hv : v ∈ vars) : (adj v).length ≤ maxDeg vars adj := by
  induction vars with
  | nil => cases hv
  | cons a rest ih =>
    rcases List.mem_cons.mp hv with rfl | hv'
    · exact le_max_left _ _
    · exact (ih hv').trans (le_max_right _ _)

theorem domSize_mono (h : ∀ w, (d1 w).card ≤ (d w).card) :
    domSize vars d1 ≤ domSize vars d := by
  induction vars with
  | nil => exact le_rfl
  | cons a rest ih =>
    simp only [domSize, List.map_cons, List.sum_cons]
    exact Nat.add_le_add (h a) ih

theorem domSize_lt {v : ℤ} (hv : v ∈ vars) (hlt : (d1 v).card < (d v).card)
    (hoth : ∀ w, w ≠ v → d1 w = d w) : domSize vars d1 < domSize vars d := by
  have hle : ∀ w, (d1 w).card ≤ (d w).card := by
    intro w
    by_cases hw : w = v
    · exact hw ▸ hlt.le
    · rw [hoth w hw]
  induction vars with
  | nil => cases hv
  | cons a rest ih =>
    simp only [domSize, List.map_cons, List.sum_cons]
    rcases List.mem_cons.mp hv with rfl | hv'
    · exact Nat.add_lt_add_of_lt_of_le hlt (domSize_mono hle)
    · exact Nat.add_lt_add_of_le_of_lt (hle a) (ih hv')

/-- If a revision actually removed something, the revised variable is a
variable and the total domain size over the variable list shrank. -/
theorem revise_domSize_lt (hX : X ∈ vars)
    (h : revise vars X Y d t = some (true, d1, t1)) :
    domSize vars d1 < domSize vars d := by
  obtain ⟨_, _, hcase⟩ := revise_cases h
  rcases hcase with ⟨hb, _, _, _⟩ | ⟨_, y, _, hmem, rfl, rfl⟩
  · cases hb
  · refine domSize_lt hX ?_ (fun w hw => Function.update_noteq hw _ _)
    rw [Function.update_same, Finset.card_erase_of_mem hmem]
    exact Nat.sub_lt (Finset.card_pos.mpr ⟨y, hmem⟩) Nat.one_pos

/-- Running `ac3Fuel` with the computed bound never runs out of fuel: AC-3
terminates on every input (possibly by crashing on a bad lookup, which
is Python's `KeyError` termination). -/
theorem ac3Fuel_no_fuelout {n : ℕ} {q : List Arc}
    (hn : (maxDeg vars adj + 2) * domSize vars d + q.length < n) :
    ac3Fuel vars adj n q d t ≠ .fuelout := by
  induction n generalizing q d t with
  | zero => omega
  | succ n ih =>
    cases q with
    | nil => simp [ac3Fuel]
    | cons a q =>
      obtain ⟨Xi, Xj⟩ := a
      simp only [ac3Fuel]
      cases hrev : revise vars Xi Xj d t with
      | none => simp
      | some r =>
        obtain ⟨revised, d1, t1⟩ := r
        simp only
        have hXi : Xi ∈ vars := (revise_cases hrev).1
        split
        · rename_i hrevised
          split
          · simp
          · apply ih
            have hS : domSize vars d1 < domSize vars d :=
              revise_domSize_lt hXi (hrevised ▸ hrev)
            have hq : (q ++ ((adj Xi).filter (fun Xk => Xk ≠ Xj)).map
                (fun Xk => (Xk, Xi))).length ≤ q.length + maxDeg vars adj := by
              rw [List.length_append, List.length_map]
              exact Nat.add_le_add_left
                ((List.length_filter_le _ _).trans (maxDeg_le hXi)) _
            have hmul : (maxDeg vars adj + 2) * domSize vars d1 + (maxDeg vars adj + 2) ≤
                (maxDeg vars adj + 2) * domSize vars d := by
              have h1 : (maxDeg vars adj + 2) * (domSize vars d1 + 1) ≤
                  (maxDeg vars adj + 2) * domSize vars d :=
                Nat.mul_le_mul_left _ (Nat.succ_le_of_lt hS)
              rw [Nat.mul_add, Nat.mul_one] at h1
              exact h1
            simp only [List.length_cons] at hn
            omega
        · rename_i hrevised
          apply ih
          obtain ⟨_, _, hcase⟩ := revise_cases hrev
          rcases hcase with ⟨_, rfl, rfl, _⟩ | ⟨hb, _⟩
          · simp only [List.length_cons] at hn
            omega
          · exact absurd hb hrevised

/-- On well-formed arcs (both endpoints are variables, and every
neighbor list stays inside the variable list) AC-3 never raises: the
`KeyError` outcome is unreachable. -/
theorem ac3Fuel_no_crash {n : ℕ} {q : List Arc}
    (harcs : ∀ a ∈ q, a.1 ∈ vars ∧ a.2 ∈ vars)
    (hadj : ∀ v w, w ∈ adj v → w ∈ vars) :
    ac3Fuel vars adj n q d t ≠ .crash := by
  induction n generalizing q d t with
  | zero =>
    cases q with
    | nil => simp [ac3Fuel]
    | cons a q => simp [ac3Fuel]
  | succ n ih =>
    cases q with
    | nil => simp [ac3Fuel]
    | cons a q =>
      obtain ⟨Xi, Xj⟩ := a
      simp only [ac3Fuel]
      cases hrev : revise vars Xi Xj d t with
      | none =>
        have hsome : (revise vars Xi Xj d t).isSome = true :=
          revise_isSome_iff.mpr (harcs (Xi, Xj) (List.mem_cons_self _ _))
        rw [hrev] at hsome
        cases hsome
      | some r =>
        obtain ⟨revised, d1, t1⟩ := r
        simp only
        have htail : ∀ a ∈ q, a.1 ∈ vars ∧ a.2 ∈ vars :=
          fun a ha => harcs a (List.mem_cons_of_mem _ ha)
        split
        · split
          · simp
          · refine ih (fun a ha => ?_)
            rcases List.mem_append.mp ha with ha' | ha'
            · exact htail a ha'
            · obtain ⟨Xk, hXk, rfl⟩ := List.mem_map.mp ha'
              exact ⟨hadj Xi Xk (List.mem_filter.mp hXk).1,
                (harcs (Xi, Xj) (List.mem_cons_self _ _)).1⟩
        · exact ih htail

/-- On well-formed arcs, `ac3Auto` (the bound-fueled call the solver
makes) always reaches a normal boolean return. -/
theorem ac3Auto_done {q : List Arc}
    (harcs : ∀ a ∈ q, a.1 ∈ vars ∧ a.2 ∈ vars)
    (hadj : ∀ v w, w ∈ adj v → w ∈ vars) :
    ∃ b d' t', ac3Auto vars adj q d t = .done b d' t' := by
  cases hout : ac3Auto vars adj q d t with
  | crash => exact absurd hout (ac3Fuel_no_crash harcs hadj)
  | fuelout =>
    exact absurd hout (ac3Fuel_no_fuelout (by unfold ac3Bound; omega))
  | done b d' t' => exact ⟨b, d', t', rfl⟩

/-! ### AC-3: propagation facts used by the search invariant -/

/-- If AC-3 returns `true` and some queued arc `(u, w)` pointed at a
singleton domain `{c}`, then `c` has been pruned from `u`'s domain. -/
theorem ac3Fuel_done_true_singleton {n : ℕ} {q : List Arc} {u w c : ℤ}
    (h : ac3Fuel vars adj n q d t = .done true d' t')
    (hq : (u, w) ∈ q) (hw : d w = {c}) : c ∉ d' u := by
  induction n generalizing q d t with
  | zero =>
    cases q with
    | nil => cases hq
    | cons a q => exact absurd h (by simp [ac3Fuel])
  | succ n ih =>
    cases q with
    | nil => cases hq
    | cons a q =>
      obtain ⟨Xi, Xj⟩ := a
      simp only [ac3Fuel] at h
      cases hrev : revise vars Xi Xj d t with
      | none => rw [hrev] at h; cases h
      | some r =>
        obtain ⟨revised, d1, t1⟩ := r
        rw [hrev] at h
        simp only at h
        rcases List.mem_cons.mp hq with heq | htail
        · -- the arc (u, w) is the popped arc (Xi, Xj)
          injection heq with h1 h2
          subst h1
          subst h2
          obtain ⟨_, _, hcase⟩ := revise_cases hrev
          rcases hcase with ⟨hb, rfl, rfl, hnos⟩ | ⟨hb, y, hy, hmem, rfl, rfl⟩
          · -- not revised: c was already absent from u's domain
            subst hb
            simp only [Bool.false_eq_true, if_false] at h
            exact fun hc => hnos c hw (ac3Fuel_doms_subset h u hc)
          · -- revised: c was just erased; later steps only shrink domains
            subst hb
            simp only [if_true] at h
            have hyc : y = c := Finset.singleton_injective (hy.symm.trans hw)
            subst hyc
            split at h
            · cases h
            · intro hc
              have hsu := ac3Fuel_doms_subset h u hc
              rw [Function.update_same] at hsu
              exact (Finset.mem_erase.mp hsu).1 rfl
        · -- the arc (u, w) is still in the remaining queue
          obtain ⟨_, _, hcase⟩ := revise_cases hrev
          rcases hcase with ⟨hb, rfl, rfl, _⟩ | ⟨hb, y, hy, hmem, rfl, rfl⟩
          · subst hb
            simp only [Bool.false_eq_true, if_false] at h
            exact ih h htail hw
          · subst hb
            simp only [if_true] at h
            split at h
            · cases h
            · rename_i hcard
              have hw1 : Function.update d Xi ((d Xi).erase y) w = {c} := by
                by_cases hwXi : w = Xi
                · subst hwXi
                  rw [Function.update_same]
                  have hsub : (d w).erase y ⊆ {c} := hw ▸ Finset.erase_subset _ _
                  rcases Finset.subset_singleton_iff.mp hsub with hemp | hsing
                  · exfalso
                    rw [Function.update_same, hemp] at hcard
                    exact hcard rfl
                  · exact hsing
                · rw [Function.update_noteq hwXi, hw]
              exact ih h (List.mem_append_left _ htail) hw1

/-- AC-3 preserves every valid coloring that inhabits the current
domains, provided queued arcs are adjacency pairs; consequently it
cannot return `false` while such a coloring exists. -/
theorem ac3Fuel_preserves_coloring {n : ℕ} {q : List Arc} {c : ℤ → ℤ}
    (hsymm : ∀ u w, w ∈ adj u → u ∈ adj w)
    (hval : ∀ u w, w ∈ adj u → c u ≠ c w)
    (harcs : ∀ a ∈ q, a.2 ∈ adj a.1)
    (hc : ∀ v ∈ vars, c v ∈ d v)
    (h : ac3Fuel vars adj n q d t = .done b d' t') :
    (∀ v ∈ vars, c v ∈ d' v) ∧ b = true := by
  induction n generalizing q d t with
  | zero =>
    cases q with
    | nil => cases h; exact ⟨hc, rfl⟩
    | cons a q => exact absurd h (by simp [ac3Fuel])
  | succ n ih =>
    cases q with
    | nil => cases h; exact ⟨hc, rfl⟩
    | cons a q =>
      obtain ⟨Xi, Xj⟩ := a
      simp only [ac3Fuel] at h
      cases hrev : revise vars Xi Xj d t with
      | none => rw [hrev] at h; cases h
      | some r =>
        obtain ⟨revised, d1, t1⟩ := r
        rw [hrev] at h
        simp only at h
        have htail : ∀ a ∈ q, a.2 ∈ adj a.1 :=
          fun a ha => harcs a (List.mem_cons_of_mem _ ha)
        obtain ⟨hXi, hXj, hcase⟩ := revise_cases hrev
        have hc1 : ∀ v ∈ vars, c v ∈ d1 v := by
          rcases hcase with ⟨_, rfl, rfl, _⟩ | ⟨_, y, hy, hmem, rfl, rfl⟩
          · exact hc
          · intro v hv
            by_cases hvXi : v = Xi
            · have hcXj : c Xj = y := by
                have hcj := hc Xj hXj
                rw [hy, Finset.mem_singleton] at hcj
                exact hcj
              have harc : Xj ∈ adj Xi := harcs (Xi, Xj) (List.mem_cons_self _ _)
              rw [hvXi, Function.update_same, Finset.mem_erase]
              exact ⟨fun hcy => hval Xi Xj harc (by rw [hcy, hcXj]), hc Xi hXi⟩
            · rw [Function.update_noteq hvXi]
              exact hc v hv
        split at h
        · split at h
          · rename_i hcard
            exfalso
            have hmem1 := hc1 Xi hXi
            rw [Finset.card_eq_zero.mp hcard] at hmem1
            exact Finset.not_mem_empty _ hmem1
          · refine ih (fun a ha => ?_) hc1 h
            rcases List.mem_append.mp ha with ha' | ha'
            · exact htail a ha'
            · obtain ⟨Xk, hXk, rfl⟩ := List.mem_map.mp ha'
              exact hsymm Xi Xk (List.mem_filter.mp hXk).1
        · exact ih htail hc1 h

/-! ### Claim C3: trail round trip -/

theorem trail_extend_le {ta tb : Trail} (h : ∃ Δ, tb = Δ ++ ta) :
    ta.length ≤ tb.length := by
  obtain ⟨Δ, rfl⟩ := h
  rw [List.length_append]
  omega

/-- C3: for every state of the domain store and trail with the trail
length recorded as a mark, any sequence of removals (revise steps,
singleton forcings, AC-3 runs) followed by popping the trail back to the
mark restores every variable's domain to exactly its contents at the
moment the mark was recorded. -/
theorem spec_C3_trail_round_trip {vars : List ℤ} {adj : ℤ → List ℤ}
    {d d' : Dom} {t t' : Trail}
    (h : RemSeq vars adj d t d' t') :
    restoreTo t.length d' t' = (d, t) := by
  induction h with
  | refl d t => exact restoreTo_self d t
  | revise_step hrev _ ih =>
    exact restores_comp (trail_extend_le (revise_trail_extend hrev)) ih
      (revise_restores hrev)
  | force_step _ ih =>
    exact restores_comp (trail_extend_le (force_trail_extend _ _ _ _)) ih
      (force_restores _ _ _ _)
  | ac3_step hrun _ ih =>
    exact restores_comp (trail_extend_le (ac3Fuel_trail_extend hrun)) ih
      (ac3Fuel_restores hrun)

theorem spec_C3_witness :
    restoreTo (List.length ([] : Trail))
      (forceSingleton 1 1 dWc []).1 (forceSingleton 1 1 dWc []).2 = (dWc, []) :=
  @spec_C3_trail_round_trip [1, 2] adjEdge dWc (forceSingleton 1 1 dWc []).1 []
    (forceSingleton 1 1 dWc []).2 (RemSeq.force_step (RemSeq.refl _ _))

/-! ### Claim C4: revise correctness -/

/-- C4: a non-crashing `revise (Xi, Xj)` removes from `Xi`'s domain
exactly the values `x` with `domain(Xj) = {x}`, leaves all other domains
unchanged, records exactly the removed pairs on the trail, and returns
`true` iff something was removed. -/
theorem spec_C4_revise_correct {vars : List ℤ} {X Y : ℤ} {doms : Dom}
    {trail : Trail} {b : Bool} {d' : Dom} {t' : Trail}
    (h : revise vars X Y doms trail = some (b, d', t')) :
    (∀ x, x ∈ d' X ↔ x ∈ doms X ∧ ¬doms Y = {x}) ∧
    (∀ v, v ≠ X → d' v = doms v) ∧
    ((b = true) ↔ ∃ x ∈ doms X, doms Y = {x}) ∧
    (∃ pushes : List (ℤ × ℤ), t' = pushes ++ trail ∧
      ∀ p : ℤ × ℤ, p ∈ pushes ↔ p.1 = X ∧ p.2 ∈ doms X ∧ doms Y = {p.2}) := by
  obtain ⟨hX, hY, hcase⟩ := revise_cases h
  rcases hcase with ⟨hb, rfl, rfl, hnos⟩ | ⟨hb, y, hy, hmem, rfl, rfl⟩
  · subst hb
    refine ⟨?_, fun v _ => rfl, ?_, [], rfl, ?_⟩
    · intro x
      exact ⟨fun hx => ⟨hx, fun hsing => hnos x hsing hx⟩, fun hx => hx.1⟩
    · constructor
      · intro hfalse; cases hfalse
      · rintro ⟨x, hxm, hxs⟩
        exact absurd hxm (hnos x hxs)
    · intro p
      simp only [List.not_mem_nil, false_iff, not_and]
      intro _ hpm hps
      exact hnos p.2 hps hpm
  · subst hb
    have hsing_iff : ∀ x, doms Y = {x} ↔ x = y := by
      intro x
      rw [hy]
      exact ⟨fun hx => (Finset.singleton_injective hx).symm,
        fun hx => by rw [hx]⟩
    refine ⟨?_, fun v hv => Function.update_noteq hv _ _, ?_, [(X, y)], rfl, ?_⟩
    · intro x
      rw [Function.update_same, Finset.mem_erase, hsing_iff x]
      tauto
    · exact ⟨fun _ => ⟨y, hmem, hy⟩, fun _ => rfl⟩
    · intro p
      simp only [List.mem_singleton]
      constructor
      · rintro rfl
        exact ⟨rfl, hmem, hy⟩
      · rintro ⟨h1, _, h3⟩
        have : p.2 = y := (hsing_iff p.2).mp h3
        rw [Prod.ext_iff]
        exact ⟨h1, this⟩

theorem spec_C4_witness :
    (∀ x, x ∈ (Function.update dWa 1 ((dWa 1).erase 5)) 1 ↔ x ∈ dWa 1 ∧ ¬dWa 2 = {x}) ∧
    (∀ v, v ≠ 1 → (Function.update dWa 1 ((dWa 1).erase 5)) v = dWa v) ∧
    ((true = true) ↔ ∃ x ∈ dWa 1, dWa 2 = {x}) ∧
    (∃ pushes : List (ℤ × ℤ), ([(1, 5)] : Trail) = pushes ++ [] ∧
      ∀ p : ℤ × ℤ, p ∈ pushes ↔ p.1 = 1 ∧ p.2 ∈ dWa 1 ∧ dWa 2 = {p.2}) :=
  @spec_C4_revise_correct [1, 2] 1 2 dWa [] true
    (Function.update dWa 1 ((dWa 1).erase 5)) [(1, 5)]
    (revise_of_singleton (by decide) (by decide) (by decide) (by decide))

/-! ### Claim C5: AC-3 terminates and is monotone -/

/-- C5: on every finite queue and domain state AC-3 terminates (some
fuel amount, in fact the computed bound, is enough for it not to run
out), and whenever it returns, every variable's final domain is a subset
of its initial domain: propagation only ever removes values. -/
theorem spec_C5_ac3_terminates_monotone (vars : List ℤ) (adj : ℤ → List ℤ)
    (q : List Arc) (d : Dom) (t : Trail) :
    (∃ n, ac3Fuel vars adj n q d t ≠ .fuelout) ∧
    (∀ n b d' t', ac3Fuel vars adj n q d t = .done b d' t' → ∀ v, d' v ⊆ d v) :=
  ⟨⟨ac3Bound vars adj q d, ac3Fuel_no_fuelout (by unfold ac3Bound; omega)⟩,
   fun _ _ _ _ h => ac3Fuel_doms_subset h⟩

theorem spec_C5_witness :
    ((∃ n, ac3Fuel [1, 2] adjEdge n [(1, 2)] dWa [] ≠ .fuelout) ∧
      (∀ n b d' t', ac3Fuel [1, 2] adjEdge n [(1, 2)] dWa [] = .done b d' t' →
        ∀ v, d' v ⊆ dWa v)) :=
  spec_C5_ac3_terminates_monotone [1, 2] adjEdge [(1, 2)] dWa []

/-! ### Claim C6: AC-3 failure semantics -/

/-- C6: if revising the arc at the head of the queue empties `Xi`'s
domain, AC-3 returns `false` immediately with exactly the post-revision
domains and trail (no restoration, the partial removals still trailed);
more generally the trail is only ever extended, and on well-formed arcs
the exception outcome (`KeyError`) is unreachable: failure is signaled
purely by the boolean return value. -/
theorem spec_C6_ac3_failure_semantics :
    (∀ (vars : List ℤ) (adj : ℤ → List ℤ) (n : ℕ) (q : List Arc) (Xi Xj : ℤ)
        (d d1 : Dom) (t t1 : Trail),
      revise vars Xi Xj d t = some (true, d1, t1) → (d1 Xi).card = 0 →
      ac3Fuel vars adj (n + 1) ((Xi, Xj) :: q) d t = .done false d1 t1) ∧
    (∀ (vars : List ℤ) (adj : ℤ → List ℤ) (n : ℕ) (q : List Arc)
        (d d' : Dom) (t t' : Trail) (b : Bool),
      ac3Fuel vars adj n q d t = .done b d' t' → ∃ Δ, t' = Δ ++ t) ∧
    (∀ (vars : List ℤ) (adj : ℤ → List ℤ) (n : ℕ) (q : List Arc)
        (d : Dom) (t : Trail),
      (∀ a ∈ q, a.1 ∈ vars ∧ a.2 ∈ vars) → (∀ v w, w ∈ adj v → w ∈ vars) →
      ac3Fuel vars adj n q d t ≠ .crash) := by
  refine ⟨?_, ?_, ?_⟩
  · intro vars adj n q Xi Xj d d1 t t1 hrev hcard
    simp only [ac3Fuel, hrev, if_true, hcard, if_pos]
  · intro vars adj n q d d' t t' b h
    exact ac3Fuel_trail_extend h
  · intro vars adj n q d t harcs hadj
    exact ac3Fuel_no_crash harcs hadj

theorem spec_C6_witness :
    ac3Fuel [1, 2] adjEdge (0 + 1) [(1, 2)] dWb [] =
      .done false (Function.update dWb 1 ((dWb 1).erase 5)) [(1, 5)] :=
  spec_C6_ac3_failure_semantics.1 [1, 2] adjEdge 0 [] 1 2 dWb
    (Function.update dWb 1 ((dWb 1).erase 5)) [] [(1, 5)]
    (revise_of_singleton (by decide) (by decide) (by decide) (by decide))
    (by decide)

/-! ### Claim C7: MRV variable selection -/

theorem keyLe_refl (a : ℕ × ℤ) : keyLe a a := by unfold keyLe; omega

theorem keyLe_trans {a b c : ℕ × ℤ} (h1 : keyLe a b) (h2 : keyLe b c) : keyLe a c := by
  unfold keyLe at *; omega

theorem pickMin_le_left (c dd : ℕ × ℤ) : keyLe (pickMin c dd) c := by
  unfold pickMin
  split
  · unfold keyLe at *; omega
  · exact keyLe_refl c

theorem pickMin_le_right (c dd : ℕ × ℤ) : keyLe (pickMin c dd) dd := by
  unfold pickMin
  split
  · exact keyLe_refl dd
  · unfold keyLe at *; omega

theorem pickMin_mem (c dd : ℕ × ℤ) : pickMin c dd = c ∨ pickMin c dd = dd := by
  unfold pickMin
  split
  · exact Or.inr rfl
  · exact Or.inl rfl

theorem foldl_pickMin_spec (c : ℕ × ℤ) (cs : List (ℕ × ℤ)) :
    (cs.foldl pickMin c = c ∨ cs.foldl pickMin c ∈ cs) ∧
    keyLe (cs.foldl pickMin c) c ∧ ∀ x ∈ cs, keyLe (cs.foldl pickMin c) x := by
  induction cs generalizing c with
  | nil => exact ⟨Or.inl rfl, keyLe_refl c, by simp⟩
  | cons dd rest ih =>
    simp only [List.foldl_cons]
    obtain ⟨ihm, ihle, ihall⟩ := ih (pickMin c dd)
    refine ⟨?_, keyLe_trans ihle (pickMin_le_left c dd), ?_⟩
    · rcases ihm with he | hm
      · rw [he]
        rcases pickMin_mem c dd with h' | h'
        · exact Or.inl h'
        · rw [h']
          exact Or.inr (List.mem_cons_self _ _)
      · exact Or.inr (List.mem_cons_of_mem _ hm)
    · intro x hx
      rcases List.mem_cons.mp hx with rfl | hx'
      · exact keyLe_trans ihle (pickMin_le_right c x)
      · exact ihall x hx'

theorem selectVar_some_spec {var : ℤ} {vars : List ℤ} {doms : Dom} {assign : Assign}
    (h : selectVar vars doms assign = some var) :
    var ∈ vars ∧ (assign var).isNone = true ∧
      ∀ u ∈ vars, (assign u).isNone = true →
        (doms var).card < (doms u).card ∨
        ((doms var).card = (doms u).card ∧ var ≤ u) := by
  unfold selectVar at h
  cases hcand : (vars.filter (fun v => (assign v).isNone)).map
      (fun v => ((doms v).card, v)) with
  | nil => rw [hcand] at h; cases h
  | cons c cs =>
    rw [hcand] at h
    simp only [Option.some.injEq] at h
    obtain ⟨hmem, _, hall⟩ := foldl_pickMin_spec c cs
    have hm_mem : cs.foldl pickMin c ∈ c :: cs := by
      rcases hmem with he | hm
      · rw [he]
        exact List.mem_cons_self _ _
      · exact List.mem_cons_of_mem _ hm
    rw [← hcand] at hm_mem
    obtain ⟨v, hvfil, hvm⟩ := List.mem_map.mp hm_mem
    have hv2 : v = var := by rw [← h, ← hvm]
    subst hv2
    have hvf := List.mem_filter.mp hvfil
    refine ⟨hvf.1, hvf.2, ?_⟩
    intro u hu hu_un
    have hu_cand : ((doms u).card, u) ∈ c :: cs := by
      rw [← hcand]
      exact List.mem_map.mpr ⟨u, List.mem_filter.mpr ⟨hu, hu_un⟩, rfl⟩
    have hle : keyLe (cs.foldl pickMin c) ((doms u).card, u) := by
      rcases List.mem_cons.mp hu_cand with he | hm
      · rw [he]
        exact (foldl_pickMin_spec c cs).2.1
      · exact hall _ hm
    rw [← hvm] at hle
    unfold keyLe at hle
    simpa using hle

theorem selectVar_none_iff {vars : List ℤ} {doms : Dom} {assign : Assign} :
    selectVar vars doms assign = none ↔ ∀ v ∈ vars, (assign v).isNone = false := by
  unfold selectVar
  cases hcand : (vars.filter (fun v => (assign v).isNone)).map
      (fun v => ((doms v).card, v)) with
  | nil =>
    have hfil : vars.filter (fun v => (assign v).isNone) = [] :=
      List.map_eq_nil_iff.mp hcand
    constructor
    · intro _ v hv
      exact Bool.eq_false_iff.mpr (List.filter_eq_nil_iff.mp hfil v hv)
    · intro _
      rfl
  | cons c cs =>
    have hne : vars.filter (fun v => (assign v).isNone) ≠ [] := by
      intro hf
      rw [hf] at hcand
      simp at hcand
    obtain ⟨v, hvmem⟩ := List.exists_mem_of_ne_nil _ hne
    have hvf := List.mem_filter.mp hvmem
    constructor
    · intro h
      cases h
    · intro hall
      exfalso
      have hv2 := hall v hvf.1
      rw [hvf.2] at hv2
      cases hv2

/-- C7: MRV selection: when some variable is unassigned,
`select_unassigned_variable` returns an unassigned variable of minimal
current domain size, and the least such variable identifier among the
minima; when every variable is assigned it returns `None`. -/
theorem spec_C7_mrv_selection (vars : List ℤ) (doms : Dom) (assign : Assign) :
    (∀ var, selectVar vars doms assign = some var →
      var ∈ vars ∧ (assign var).isNone = true ∧
        ∀ u ∈ vars, (assign u).isNone = true →
          (doms var).card < (doms u).card ∨
          ((doms var).card = (doms u).card ∧ var ≤ u)) ∧
    (selectVar vars doms assign = none ↔ ∀ v ∈ vars, (assign v).isNone = false) :=
  ⟨fun _ h => selectVar_some_spec h, selectVar_none_iff⟩

theorem spec_C7_witness :
    ((2 : ℤ) ∈ [(1 : ℤ), 2, 3] ∧ (assignNone 2).isNone = true ∧
      ∀ u ∈ [(1 : ℤ), 2, 3], (assignNone u).isNone = true →
        (dWa 2).card < (dWa u).card ∨
        ((dWa 2).card = (dWa u).card ∧ 2 ≤ u)) :=
  (spec_C7_mrv_selection [1, 2, 3] dWa assignNone).1 2 (by decide)

/-! ### Claim C8: LCV value ordering -/

theorem orderVals_some_spec {l : List ℤ} {vars : List ℤ} {adj : ℤ → List ℤ}
    {var : ℤ} {doms : Dom} {assign : Assign}
    (h : orderVals vars adj var doms assign = some l) :
    (∀ x, x ∈ l ↔ x ∈ doms var) ∧ l.Nodup ∧
    l.Pairwise (fun a b =>
      elimCount adj doms assign var a < elimCount adj doms assign var b ∨
      (elimCount adj doms assign var a = elimCount adj doms assign var b ∧ a < b)) := by
  unfold orderVals at h
  split at h
  case isFalse => cases h
  case isTrue hcond =>
  simp only [Option.some.injEq] at h
  subst h
  have hperm : (List.insertionSort keyLe
      (((doms var).sort (· ≤ ·)).map
        (fun val => (elimCount adj doms assign var val, val)))).Perm
      (((doms var).sort (· ≤ ·)).map
        (fun val => (elimCount adj doms assign var val, val))) :=
    List.perm_insertionSort _ _
  have hmapsnd : (((doms var).sort (· ≤ ·)).map
      (fun val => (elimCount adj doms assign var val, val))).map Prod.snd =
      (doms var).sort (· ≤ ·) := by
    rw [List.map_map]
    exact List.map_id' _
  have hpermsnd : ((List.insertionSort keyLe
      (((doms var).sort (· ≤ ·)).map
        (fun val => (elimCount adj doms assign var val, val)))).map Prod.snd).Perm
      ((doms var).sort (· ≤ ·)) := by
    have hp2 := hperm.map Prod.snd
    rwa [hmapsnd] at hp2
  have hnodup' : ((List.insertionSort keyLe
      (((doms var).sort (· ≤ ·)).map
        (fun val => (elimCount adj doms assign var val, val)))).map Prod.snd).Nodup :=
    hpermsnd.symm.nodup (Finset.sort_nodup _ _)
  refine ⟨?_, hnodup', ?_⟩
  · intro x
    rw [hpermsnd.mem_iff, Finset.mem_sort]
  · have hsorted := List.sorted_insertionSort keyLe
      (((doms var).sort (· ≤ ·)).map
        (fun val => (elimCount adj doms assign var val, val)))
    have hform : ∀ p ∈ List.insertionSort keyLe
        (((doms var).sort (· ≤ ·)).map
          (fun val => (elimCount adj doms assign var val, val))),
        p.1 = elimCount adj doms assign var p.2 := by
      intro p hp
      have hp' := hperm.mem_iff.mp hp
      obtain ⟨val, _, rfl⟩ := List.mem_map.mp hp'
      rfl
    have hnodupP : (List.insertionSort keyLe
        (((doms var).sort (· ≤ ·)).map
          (fun val => (elimCount adj doms assign var val, val)))).Pairwise
        (fun p q => p.2 ≠ q.2) :=
      List.pairwise_map.mp hnodup'
    rw [List.pairwise_map]
    refine (hsorted.and hnodupP).imp_of_mem ?_
    intro p q hpmem hqmem hpq
    obtain ⟨hle, hne⟩ := hpq
    have hp1 := hform p hpmem
    have hq1 := hform q hqmem
    rw [← hp1, ← hq1]
    unfold keyLe at hle
    rcases hle with h1 | ⟨h2, h3⟩
    · exact Or.inl h1
    · exact Or.inr ⟨h2, lt_of_le_of_ne h3 hne⟩

/-- C8: LCV ordering: a non-crashing `order_domain_values` returns
exactly the values of the variable's current domain, without duplicates,
sorted ascending by elimination count (number of not-yet-assigned
neighbors whose domain contains the value), ties broken by the value
itself ascending. -/
theorem spec_C8_lcv_ordering (vars : List ℤ) (adj : ℤ → List ℤ) (var : ℤ)
    (doms : Dom) (assign : Assign) (l : List ℤ)
    (h : orderVals vars adj var doms assign = some l) :
    (∀ x, x ∈ l ↔ x ∈ doms var) ∧ l.Nodup ∧
    l.Pairwise (fun a b =>
      elimCount adj doms assign var a < elimCount adj doms assign var b ∨
      (elimCount adj doms assign var a = elimCount adj doms assign var b ∧ a < b)) :=
  orderVals_some_spec h

/-- Sorting a finset is characterized by sortedness, duplicate freedom
and membership; lets concrete `Finset.sort` values be computed without
kernel-reducing mergeSort. -/
theorem sort_eq_of_sorted_nodup (s : Finset ℤ) (l : List ℤ) (hnd : l.Nodup)
    (hsort : l.Sorted (· ≤ ·)) (htf : l.toFinset = s) :
    Finset.sort (· ≤ ·) s = l := by
  apply List.eq_of_perm_of_sorted ?_ (Finset.sort_sorted _ _) hsort
  apply List.perm_of_nodup_nodup_toFinset_eq (Finset.sort_nodup _ _) hnd
  rw [htf, Finset.sort_toFinset]

theorem spec_C8_witness :
    (∀ x, x ∈ ([1, 2] : List ℤ) ↔ x ∈ dWc 1) ∧ ([1, 2] : List ℤ).Nodup ∧
    ([1, 2] : List ℤ).Pairwise (fun a b =>
      elimCount adjTriangle dWc assignNone 1 a < elimCount adjTriangle dWc assignNone 1 b ∨
      (elimCount adjTriangle dWc assignNone 1 a = elimCount adjTriangle dWc assignNone 1 b ∧
        a < b)) :=
  spec_C8_lcv_ordering [1, 2, 3] adjTriangle 1 dWc assignNone [1, 2] (by
    have hs : Finset.sort (· ≤ ·) (dWc 1) = [1, 2] :=
      sort_eq_of_sorted_nodup _ _ (by decide) (by decide) (by decide)
    unfold orderVals
    rw [if_pos (by decide), hs]
    decide)

/-! ### Backtracking search: building blocks -/

theorem ac3Auto_restores {q : List Arc} {vars : List ℤ} {adj : ℤ → List ℤ}
    {d d' : Dom} {t t' : Trail} {b : Bool}
    (h : ac3Auto vars adj q d t = .done b d' t') :
    restoreTo t.length d' t' = (d, t) :=
  ac3Fuel_restores h

theorem ac3Auto_doms_subset {q : List Arc} {vars : List ℤ} {adj : ℤ → List ℤ}
    {d d' : Dom} {t t' : Trail} {b : Bool}
    (h : ac3Auto vars adj q d t = .done b d' t') : ∀ v, d' v ⊆ d v :=
  ac3Fuel_doms_subset h

theorem ac3Auto_trail_extend {q : List Arc} {vars : List ℤ} {adj : ℤ → List ℤ}
    {d d' : Dom} {t t' : Trail} {b : Bool}
    (h : ac3Auto vars adj q d t = .done b d' t') : ∃ Δ, t' = Δ ++ t :=
  ac3Fuel_trail_extend h

theorem ac3Auto_singleton {q : List Arc} {vars : List ℤ} {adj : ℤ → List ℤ}
    {d d' : Dom} {t t' : Trail} {u w c : ℤ}
    (h : ac3Auto vars adj q d t = .done true d' t')
    (hq : (u, w) ∈ q) (hw : d w = {c}) : c ∉ d' u :=
  ac3Fuel_done_true_singleton h hq hw

theorem ac3Auto_preserves_coloring {q : List Arc} {vars : List ℤ}
    {adj : ℤ → List ℤ} {d d' : Dom} {t t' : Trail} {b : Bool} {c : ℤ → ℤ}
    (hsymm : ∀ u w, w ∈ adj u → u ∈ adj w)
    (hval : ∀ u w, w ∈ adj u → c u ≠ c w)
    (harcs : ∀ a ∈ q, a.2 ∈ adj a.1)
    (hc : ∀ v ∈ vars, c v ∈ d v)
    (h : ac3Auto vars adj q d t = .done b d' t') :
    (∀ v ∈ vars, c v ∈ d' v) ∧ b = true :=
  ac3Fuel_preserves_coloring hsymm hval harcs hc h

/-- The forced domain of the assigned variable is the singleton of the
assigned value. -/
theorem force_doms_var {var value : ℤ} {d : Dom} {t : Trail}
    (hval : value ∈ d var) :
    (forceSingleton var value d t).1 var = {value} := by
  simp only [forceSingleton]
  rw [Function.update_same]
  ext z
  simp only [Finset.mem_sdiff, Finset.mem_erase, Finset.mem_singleton]
  constructor
  · rintro ⟨hz, hz2⟩
    by_contra hne
    exact hz2 ⟨hne, hz⟩
  · rintro rfl
    exact ⟨hval, fun hz => hz.1 rfl⟩

theorem force_doms_other {var value : ℤ} {d : Dom} {t : Trail} {v : ℤ}
    (hv : v ≠ var) : (forceSingleton var value d t).1 v = d v :=
  Function.update_noteq hv _ _

theorem force_doms_subset (var value : ℤ) (d : Dom) (t : Trail) :
    ∀ v, (forceSingleton var value d t).1 v ⊆ d v := by
  intro v
  by_cases hv : v = var
  · subst hv
    simp only [forceSingleton]
    rw [Function.update_same]
    exact Finset.sdiff_subset
  · rw [force_doms_other hv]

/-- Assigning a fresh variable increases the assigned count by exactly
one (duplicate-free variable list). -/
theorem assignedCount_update {vars : List ℤ} {assign : Assign} {var : ℤ}
    (hnd : vars.Nodup) (hvar : var ∈ vars) (hnone : assign var = none)
    (value : ℤ) :
    assignedCount vars (Function.update assign var (some value)) =
      assignedCount vars assign + 1 := by
  induction vars with
  | nil => cases hvar
  | cons a rest ih =>
    have hnd' := List.nodup_cons.mp hnd
    have e1 : assignedCount (a :: rest) (Function.update assign var (some value)) =
        assignedCount rest (Function.update assign var (some value)) +
          if ((Function.update assign var (some value)) a).isSome = true then 1 else 0 :=
      List.countP_cons _ _ _
    have e2 : assignedCount (a :: rest) assign =
        assignedCount rest assign + if (assign a).isSome = true then 1 else 0 :=
      List.countP_cons _ _ _
    rw [e1, e2]
    by_cases hva : var = a
    · subst hva
      have hrest : assignedCount rest (Function.update assign var (some value)) =
          assignedCount rest assign := by
        apply List.countP_congr
        intro v hv
        have hvne : v ≠ var := fun he => hnd'.1 (by rw [← he]; exact hv)
        rw [Function.update_noteq hvne]
      rw [hrest, Function.update_same, hnone]
      simp
    · have hvar' : var ∈ rest := by
        rcases List.mem_cons.mp hvar with he | h'
        · exact absurd he hva
        · exact h'
      have ha : Function.update assign var (some value) a = assign a :=
        Function.update_noteq (fun he => hva he.symm) _ _
      rw [ha, ih hnd'.2 hvar']
      omega

theorem initQueue_mem {vars : List ℤ} {adj : ℤ → List ℤ} {a : Arc}
    (h : a ∈ initQueue vars adj) : a.1 ∈ vars ∧ a.2 ∈ adj a.1 := by
  unfold initQueue at h
  rw [List.mem_flatten] at h
  obtain ⟨l, hl, hal⟩ := h
  obtain ⟨Xi, hXi, rfl⟩ := List.mem_map.mp hl
  obtain ⟨Xj, hXj, rfl⟩ := List.mem_map.mp hal
  exact ⟨hXi, hXj⟩

/-- A complete assignment passes through the completion loop untouched. -/
theorem finalize_complete {doms : Dom} {assign : Assign} :
    ∀ l : List ℤ, (∀ v ∈ l, (assign v).isSome = true) →
    finalize doms l assign = .success assign := by
  intro l
  induction l with
  | nil => intro _; rfl
  | cons v rest ih =>
    intro hall
    obtain ⟨c, hc⟩ := Option.isSome_iff_exists.mp (hall v (List.mem_cons_self _ _))
    unfold finalize
    rw [hc]
    exact ih (fun u hu => hall u (List.mem_cons_of_mem _ hu))

/-- The completion loop only ever produces a mapping or the failure
signal (never an exception or fuel exhaustion). -/
theorem finalize_cases (doms : Dom) :
    ∀ (l : List ℤ) (assign : Assign),
      (∃ a, finalize doms l assign = .success a) ∨ finalize doms l assign = .failure := by
  intro l
  induction l with
  | nil => exact fun assign => Or.inl ⟨assign, rfl⟩
  | cons v rest ih =>
    intro assign
    unfold finalize
    cases hv : assign v with
    | some c => exact ih assign
    | none =>
      by_cases hne : (doms v).Nonempty
      · rw [dif_pos hne]
        exact ih _
      · rw [dif_neg hne]
        exact Or.inr rfl

/-- Ordering values cannot raise when the variable and its
unassigned neighbors are variables. -/
theorem orderVals_isSome {vars : List ℤ} {adj : ℤ → List ℤ} {var : ℤ}
    {doms : Dom} {assign : Assign}
    (hvar : var ∈ vars) (hnb : ∀ nb ∈ adj var, nb ∈ vars) :
    ∃ l, orderVals vars adj var doms assign = some l := by
  unfold orderVals
  rw [if_pos ⟨hvar, fun nb hnbm _ => hnb nb hnbm⟩]
  exact ⟨_, rfl⟩

/-! ### Backtracking: state discipline on failure -/

/-- If every failing recursive call hands back exactly its entry domains
and trail, so does the value loop: each candidate branch is rolled back
to the recorded mark before the next one is tried. -/
theorem tryValuesGo_false_state {vars : List ℤ} {adj : ℤ → List ℤ}
    {bt : Dom → Assign → Trail → BTOut} {var : ℤ}
    (hbt : ∀ {d0 : Dom} {a0 : Assign} {t0 : Trail} {d2 : Dom} {a2 : Assign} {t2 : Trail},
      bt d0 a0 t0 = .done false d2 a2 t2 → d2 = d0 ∧ t2 = t0) :
    ∀ (values : List ℤ) {doms : Dom} {assign : Assign} {trail : Trail}
      {d' : Dom} {a' : Assign} {t' : Trail},
      tryValuesGo vars adj bt var values doms assign trail = .done false d' a' t' →
      d' = doms ∧ t' = trail := by
  intro values
  induction values with
  | nil =>
    intro doms assign trail d' a' t' h
    simp only [tryValuesGo] at h
    injection h with _ h1 h2 h3
    exact ⟨h1.symm, h3.symm⟩
  | cons value rest ih =>
    intro doms assign trail d' a' t' h
    simp only [tryValuesGo] at h
    split at h
    · cases h
    · cases h
    · rename_i consistent d2 t2 hac
      have hres : restoreTo trail.length d2 t2 = (doms, trail) :=
        restores_comp (trail_extend_le (force_trail_extend var value doms trail))
          (ac3Auto_restores hac) (force_restores var value doms trail)
      split at h
      · split at h
        · rw [hres] at h
          exact ih h
        · split at h
          · cases h
          · cases h
          · cases h
          · rename_i d3 a3 t3 hbtout
            obtain ⟨hd3, ht3⟩ := hbt hbtout
            subst hd3
            subst ht3
            rw [hres] at h
            exact ih h
      · rw [hres] at h
        exact ih h

/-- Backtracking hands back exactly its entry domains and trail whenever
it fails: the search left no residue. -/
theorem backtrackFuel_false_state {vars : List ℤ} {adj : ℤ → List ℤ} :
    ∀ (fuel : ℕ) {doms : Dom} {assign : Assign} {trail : Trail}
      {d' : Dom} {a' : Assign} {t' : Trail},
      backtrackFuel vars adj fuel doms assign trail = .done false d' a' t' →
      d' = doms ∧ t' = trail := by
  intro fuel
  induction fuel with
  | zero =>
    intro doms assign trail d' a' t' h
    cases h
  | succ fuel ih =>
    intro doms assign trail d' a' t' h
    simp only [backtrackFuel] at h
    split at h
    · cases h
    · split at h
      · injection h with _ h1 h2 h3
        exact ⟨h1.symm, h3.symm⟩
      · split at h
        · cases h
        · exact tryValuesGo_false_state (fun hh => ih hh) _ h

/-! ### Backtracking: the search invariant survives a trial assignment -/

/-- After forcing `var := value` and a successful propagation that left
no empty domain among the variables, the search invariant holds again:
the freshly assigned value has been pruned from every unassigned
neighbor (seeded arcs), and all previously pruned values stay pruned
(monotonicity). -/
theorem searchInv_after_assign {k : ℤ} {vars : List ℤ} {adj : ℤ → List ℤ}
    {doms : Dom} {assign : Assign} {trail : Trail} {var value : ℤ}
    {d2 : Dom} {t2 : Trail}
    (hwf : GraphWF vars adj) (hinv : SearchInv k vars adj doms assign)
    (hvar : var ∈ vars) (hunas : assign var = none) (hval : value ∈ doms var)
    (hac : ac3Auto vars adj ((adj var).map (fun nb => (nb, var)))
      (forceSingleton var value doms trail).1 (forceSingleton var value doms trail).2
      = .done true d2 t2)
    (hne : ∀ v ∈ vars, (d2 v).card ≠ 0) :
    SearchInv k vars adj d2 (Function.update assign var (some value)) := by
  obtain ⟨hnd, hadj, hsymm, hirr, _⟩ := hwf
  obtain ⟨hicc, hmem, hsing, _, hedge, hpruned⟩ := hinv
  have hsub2 : ∀ v, d2 v ⊆ (forceSingleton var value doms trail).1 v :=
    ac3Auto_doms_subset hac
  have hsub : ∀ v, d2 v ⊆ doms v :=
    fun v => (hsub2 v).trans (force_doms_subset var value doms trail v)
  have hne' : ∀ v ∈ vars, (d2 v).Nonempty :=
    fun v hv => Finset.card_ne_zero.mp (hne v hv)
  refine ⟨?_, ?_, ?_, hne', ?_, ?_⟩
  · exact fun v hv => (hsub v).trans (hicc v hv)
  · intro v hv
    by_cases hvv : v = var
    · exact hvv ▸ hvar
    · rw [Function.update_noteq hvv] at hv
      exact hmem v hv
  · intro v c hc
    by_cases hvv : v = var
    · rw [hvv] at hc ⊢
      rw [Function.update_same] at hc
      injection hc with hc
      have hs : d2 var ⊆ {value} := by
        have h1 := hsub2 var
        rwa [force_doms_var hval] at h1
      rw [← hc]
      rcases Finset.subset_singleton_iff.mp hs with hemp | hsing2
      · exact absurd hemp (Finset.nonempty_iff_ne_empty.mp (hne' var hvar))
      · exact hsing2
    · rw [Function.update_noteq hvv] at hc
      have hs : d2 v ⊆ {c} := by
        have h1 := hsub2 v
        rw [force_doms_other hvv] at h1
        rw [← hsing v c hc]
        exact h1
      rcases Finset.subset_singleton_iff.mp hs with hemp | hsing2
      · exact absurd hemp
          (Finset.nonempty_iff_ne_empty.mp (hne' v (hmem v (by rw [hc]; rfl))))
      · exact hsing2
  · -- assigned neighbors keep distinct colors
    intro u w cu cw huw hu hw
    by_cases huv : u = var <;> by_cases hwv : w = var
    · rw [huv, hwv] at huw
      exact absurd huw (hirr var)
    · rw [huv] at hu huw
      rw [Function.update_same] at hu
      injection hu with hu
      rw [Function.update_noteq hwv] at hw
      have hcw : cw ∉ doms var := hpruned var w cw huw hw hunas
      intro hcc
      apply hcw
      rw [← hcc, ← hu]
      exact hval
    · rw [hwv] at hw huw
      rw [Function.update_same] at hw
      injection hw with hw
      rw [Function.update_noteq huv] at hu
      have huvadj : u ∈ adj var := hsymm u var huw
      have hcu : cu ∉ doms var := hpruned var u cu huvadj hu hunas
      intro hcc
      apply hcu
      rw [hcc, ← hw]
      exact hval
    · rw [Function.update_noteq huv] at hu
      rw [Function.update_noteq hwv] at hw
      exact hedge u w cu cw huw hu hw
  · -- pruning of assigned colors from unassigned neighbors
    intro u w c huw hw hu
    have hune : u ≠ var := by
      intro he
      rw [he, Function.update_same] at hu
      cases hu
    rw [Function.update_noteq hune] at hu
    by_cases hwv : w = var
    · rw [hwv] at hw huw
      rw [Function.update_same] at hw
      injection hw with hw
      have huq : (u, var) ∈ (adj var).map (fun nb => (nb, var)) :=
        List.mem_map.mpr ⟨u, hsymm u var huw, rfl⟩
      rw [← hw]
      exact ac3Auto_singleton hac huq (force_doms_var hval)
    · rw [Function.update_noteq hwv] at hw
      exact fun hcm => hpruned u w c huw hw hu (hsub u hcm)

/-! ### Backtracking: soundness of a successful search -/

theorem tryValuesGo_sound {k : ℤ} {vars : List ℤ} {adj : ℤ → List ℤ}
    {bt : Dom → Assign → Trail → BTOut} {var : ℤ}
    (hwf : GraphWF vars adj) (hvar : var ∈ vars)
    (hbtf : ∀ {d0 : Dom} {a0 : Assign} {t0 : Trail} {d2 : Dom} {a2 : Assign} {t2 : Trail},
      bt d0 a0 t0 = .done false d2 a2 t2 → d2 = d0 ∧ t2 = t0)
    (hbtt : ∀ {d0 : Dom} {a0 : Assign} {t0 : Trail} {d2 : Dom} {a2 : Assign} {t2 : Trail},
      SearchInv k vars adj d0 a0 → bt d0 a0 t0 = .done true d2 a2 t2 →
      SearchInv k vars adj d2 a2 ∧ ∀ v ∈ vars, (a2 v).isSome = true) :
    ∀ (values : List ℤ) {doms : Dom} {assign : Assign} {trail : Trail}
      {d' : Dom} {a' : Assign} {t' : Trail},
      SearchInv k vars adj doms assign → assign var = none →
      (∀ x ∈ values, x ∈ doms var) →
      tryValuesGo vars adj bt var values doms assign trail = .done true d' a' t' →
      SearchInv k vars adj d' a' ∧ ∀ v ∈ vars, (a' v).isSome = true := by
  intro values
  induction values with
  | nil =>
    intro doms assign trail d' a' t' _ _ _ h
    simp only [tryValuesGo] at h
    cases h
  | cons value rest ih =>
    intro doms assign trail d' a' t' hinv hunas hvals h
    simp only [tryValuesGo] at h
    split at h
    · cases h
    · cases h
    · rename_i consistent d2 t2 hac
      have hres : restoreTo trail.length d2 t2 = (doms, trail) :=
        restores_comp (trail_extend_le (force_trail_extend var value doms trail))
          (ac3Auto_restores hac) (force_restores var value doms trail)
      split at h
      · rename_i hcons
        rw [hcons] at hac
        split at h
        · rw [hres] at h
          exact ih hinv hunas (fun x hx => hvals x (List.mem_cons_of_mem _ hx)) h
        · rename_i hanyf
          have hne : ∀ v ∈ vars, (d2 v).card ≠ 0 := by
            intro v hv hc
            apply hanyf
            rw [List.any_eq_true]
            exact ⟨v, hv, by simp [hc]⟩
          have hinv2 : SearchInv k vars adj d2 (Function.update assign var (some value)) :=
            searchInv_after_assign hwf hinv hvar hunas
              (hvals value (List.mem_cons_self _ _)) hac hne
          split at h
          · cases h
          · cases h
          · rename_i d3 a3 t3 hbtout
            have hr := hbtt hinv2 hbtout
            injection h with _ h1 h2 h3
            rw [← h1, ← h2]
            exact hr
          · rename_i d3 a3 t3 hbtout
            obtain ⟨hd3, ht3⟩ := hbtf hbtout
            subst hd3
            subst ht3
            rw [hres] at h
            exact ih hinv hunas (fun x hx => hvals x (List.mem_cons_of_mem _ hx)) h
      · rw [hres] at h
        exact ih hinv hunas (fun x hx => hvals x (List.mem_cons_of_mem _ hx)) h

/-- A successful `backtrack` ends in a state satisfying the search
invariant with every variable assigned. -/
theorem backtrackFuel_sound {k : ℤ} {vars : List ℤ} {adj : ℤ → List ℤ}
    (hwf : GraphWF vars adj) :
    ∀ (fuel : ℕ) {doms : Dom} {assign : Assign} {trail : Trail}
      {d' : Dom} {a' : Assign} {t' : Trail},
      SearchInv k vars adj doms assign →
      backtrackFuel vars adj fuel doms assign trail = .done true d' a' t' →
      SearchInv k vars adj d' a' ∧ ∀ v ∈ vars, (a' v).isSome = true := by
  intro fuel
  induction fuel with
  | zero =>
    intro doms assign trail d' a' t' _ h
    cases h
  | succ fuel ih =>
    intro doms assign trail d' a' t' hinv h
    simp only [backtrackFuel] at h
    split at h
    · rename_i hcomp
      injection h with _ h1 h2 h3
      rw [← h1, ← h2]
      exact ⟨hinv, fun v hv => List.countP_eq_length.mp hcomp v hv⟩
    · split at h
      · cases h
      · rename_i var hsel
        split at h
        · cases h
        · rename_i values hord
          obtain ⟨hvmem, hvunas, _⟩ := selectVar_some_spec hsel
          have hvals : ∀ x ∈ values, x ∈ doms var :=
            fun x hx => ((orderVals_some_spec hord).1 x).mp hx
          have hvunas' : assign var = none := Option.isNone_iff_eq_none.mp hvunas
          exact tryValuesGo_sound hwf hvmem
            (fun hh => backtrackFuel_false_state fuel hh)
            (fun hi hh => ih hi hh) values hinv hvunas' hvals h

/-! ### Backtracking: the search neither raises nor runs out of fuel -/

theorem seedQueue_arcs_wf {vars : List ℤ} {adj : ℤ → List ℤ} {var : ℤ}
    (hadj : ∀ v w, w ∈ adj v → w ∈ vars) (hvar : var ∈ vars) :
    ∀ a ∈ (adj var).map (fun nb => (nb, var)), a.1 ∈ vars ∧ a.2 ∈ vars := by
  intro a ha
  obtain ⟨nb, hnb, rfl⟩ := List.mem_map.mp ha
  exact ⟨hadj var nb hnb, hvar⟩

theorem seedQueue_arcs_adj {adj : ℤ → List ℤ} {var : ℤ}
    (hsymm : ∀ u w, w ∈ adj u → u ∈ adj w) :
    ∀ a ∈ (adj var).map (fun nb => (nb, var)), a.2 ∈ adj a.1 := by
  intro a ha
  obtain ⟨nb, hnb, rfl⟩ := List.mem_map.mp ha
  exact hsymm var nb hnb

theorem tryValuesGo_not_stuck {vars : List ℤ} {adj : ℤ → List ℤ}
    {bt : Dom → Assign → Trail → BTOut} {var : ℤ} {assign : Assign}
    (hwf : GraphWF vars adj) (hvar : var ∈ vars)
    (hbt3 : ∀ (d0 : Dom) (t0 : Trail) (value : ℤ),
      bt d0 (Function.update assign var (some value)) t0 ≠ .crash ∧
      bt d0 (Function.update assign var (some value)) t0 ≠ .fuelout) :
    ∀ (values : List ℤ) (doms : Dom) (trail : Trail),
      tryValuesGo vars adj bt var values doms assign trail ≠ .crash ∧
      tryValuesGo vars adj bt var values doms assign trail ≠ .fuelout := by
  intro values
  induction values with
  | nil =>
    intro doms trail
    constructor <;> intro h <;> simp only [tryValuesGo] at h <;> cases h
  | cons value rest ih =>
    intro doms trail
    constructor <;> intro h <;> simp only [tryValuesGo] at h <;> split at h
    · rename_i hac
      exact ac3Fuel_no_crash (seedQueue_arcs_wf hwf.2.1 hvar) hwf.2.1 hac
    · rename_i hac
      exact ac3Fuel_no_fuelout (by unfold ac3Bound; omega) hac
    · split at h
      · split at h
        · exact (ih _ _).1 h
        · split at h
          · rename_i hbtout
            exact (hbt3 _ _ _).1 hbtout
          · rename_i hbtout
            cases h
          · cases h
          · exact (ih _ _).1 h
      · exact (ih _ _).1 h
    · rename_i hac
      exact ac3Fuel_no_crash (seedQueue_arcs_wf hwf.2.1 hvar) hwf.2.1 hac
    · rename_i hac
      exact ac3Fuel_no_fuelout (by unfold ac3Bound; omega) hac
    · split at h
      · split at h
        · exact (ih _ _).2 h
        · split at h
          · rename_i hbtout
            cases h
          · rename_i hbtout
            exact (hbt3 _ _ _).2 hbtout
          · cases h
          · exact (ih _ _).2 h
      · exact (ih _ _).2 h

theorem backtrackFuel_not_stuck {vars : List ℤ} {adj : ℤ → List ℤ}
    (hwf : GraphWF vars adj) :
    ∀ (fuel : ℕ) (doms : Dom) (assign : Assign) (trail : Trail),
      vars.length < fuel + assignedCount vars assign →
      backtrackFuel vars adj fuel doms assign trail ≠ .crash ∧
      backtrackFuel vars adj fuel doms assign trail ≠ .fuelout := by
  intro fuel
  induction fuel with
  | zero =>
    intro doms assign trail hmeas
    have hle : assignedCount vars assign ≤ vars.length := List.countP_le_length _
    omega
  | succ fuel ih =>
    intro doms assign trail hmeas
    constructor <;> intro h <;> simp only [backtrackFuel] at h <;> split at h
    · cases h
    · split at h
      · cases h
      · rename_i var hsel
        split at h
        · rename_i hord
          obtain ⟨hvmem, hvunas, _⟩ := selectVar_some_spec hsel
          obtain ⟨l, hl⟩ := @orderVals_isSome vars adj var doms assign
            hvmem (fun nb hnb => hwf.2.1 var nb hnb)
          rw [hl] at hord
          cases hord
        · rename_i values hord
          obtain ⟨hvmem, hvunas, _⟩ := selectVar_some_spec hsel
          have hvunas' : assign var = none := Option.isNone_iff_eq_none.mp hvunas
          refine absurd h (tryValuesGo_not_stuck hwf hvmem ?_ values doms trail).1
          intro d0 t0 value
          apply ih
          rw [assignedCount_update hwf.1 hvmem hvunas' value]
          omega
    · cases h
    · split at h
      · cases h
      · rename_i var hsel
        split at h
        · rename_i hord
          obtain ⟨hvmem, hvunas, _⟩ := selectVar_some_spec hsel
          obtain ⟨l, hl⟩ := @orderVals_isSome vars adj var doms assign
            hvmem (fun nb hnb => hwf.2.1 var nb hnb)
          rw [hl] at hord
          cases hord
        · rename_i values hord
          obtain ⟨hvmem, hvunas, _⟩ := selectVar_some_spec hsel
          have hvunas' : assign var = none := Option.isNone_iff_eq_none.mp hvunas
          refine absurd h (tryValuesGo_not_stuck hwf hvmem ?_ values doms trail).2
          intro d0 t0 value
          apply ih
          rw [assignedCount_update hwf.1 hvmem hvunas' value]
          omega

/-! ### Backtracking: completeness -/

theorem tryValuesGo_complete {k : ℤ} {vars : List ℤ} {adj : ℤ → List ℤ}
    {bt : Dom → Assign → Trail → BTOut} {var : ℤ} {assign : Assign} {c : ℤ → ℤ}
    (hwf : GraphWF vars adj) (hvar : var ∈ vars)
    (hcval : ValidColoring k vars adj c)
    (hbtf : ∀ {d0 : Dom} {a0 : Assign} {t0 : Trail} {d2 : Dom} {a2 : Assign} {t2 : Trail},
      bt d0 a0 t0 = .done false d2 a2 t2 → d2 = d0 ∧ t2 = t0)
    (hbt3 : ∀ (d0 : Dom) (t0 : Trail) (value : ℤ),
      bt d0 (Function.update assign var (some value)) t0 ≠ .crash ∧
      bt d0 (Function.update assign var (some value)) t0 ≠ .fuelout)
    (hbtc : ∀ (d0 : Dom) (t0 : Trail), (∀ v ∈ vars, c v ∈ d0 v) →
      ∃ d2 a2 t2, bt d0 (Function.update assign var (some (c var))) t0 =
        .done true d2 a2 t2) :
    ∀ (values : List ℤ) (doms : Dom) (trail : Trail),
      (∀ v ∈ vars, c v ∈ doms v) → c var ∈ values →
      ∃ d' a' t',
        tryValuesGo vars adj bt var values doms assign trail = .done true d' a' t' := by
  intro values
  induction values with
  | nil =>
    intro doms trail _ hmem
    cases hmem
  | cons value rest ih =>
    intro doms trail hcdoms hmem
    obtain ⟨cb, d2, t2, hac⟩ :=
      ac3Auto_done (d := (forceSingleton var value doms trail).1)
        (t := (forceSingleton var value doms trail).2)
        (seedQueue_arcs_wf hwf.2.1 hvar) hwf.2.1
    have hres : restoreTo trail.length d2 t2 = (doms, trail) :=
      restores_comp (trail_extend_le (force_trail_extend var value doms trail))
        (ac3Auto_restores hac) (force_restores var value doms trail)
    by_cases hvc : value = c var
    · -- the branch that assigns the color of the witness coloring
      have hc1 : ∀ v ∈ vars, c v ∈ (forceSingleton var value doms trail).1 v := by
        intro v hv
        by_cases hvv : v = var
        · rw [hvv, force_doms_var (by rw [hvc]; exact hcdoms var hvar)]
          rw [hvc]
          exact Finset.mem_singleton_self _
        · rw [force_doms_other hvv]
          exact hcdoms v hv
      obtain ⟨hc2, hcb⟩ := ac3Auto_preserves_coloring hwf.2.2.1 hcval.2
        (seedQueue_arcs_adj hwf.2.2.1) hc1 hac
      rw [hcb] at hac
      have hany : (vars.any fun x => (d2 x).card == 0) = false := by
        rw [List.any_eq_false]
        intro x hx
        have : (d2 x).card ≠ 0 := Finset.card_ne_zero.mpr ⟨c x, hc2 x hx⟩
        simpa using this
      obtain ⟨d3, a3, t3, hbtout⟩ := hbtc d2 t2 hc2
      rw [← hvc] at hbtout
      refine ⟨d3, a3, t3, ?_⟩
      simp only [tryValuesGo, hac, hany, hbtout]
      simp
    · -- a different value: the branch either succeeds or is rolled back
      have hmem' : c var ∈ rest := by
        rcases List.mem_cons.mp hmem with he | h'
        · exact absurd he.symm hvc
        · exact h'
      cases cb with
      | false =>
        obtain ⟨d', a', t', heq⟩ := ih doms trail hcdoms hmem'
        refine ⟨d', a', t', ?_⟩
        simp only [tryValuesGo, hac, hres]
        exact heq
      | true =>
        by_cases hany : (vars.any fun x => (d2 x).card == 0) = true
        · obtain ⟨d', a', t', heq⟩ := ih doms trail hcdoms hmem'
          refine ⟨d', a', t', ?_⟩
          simp only [tryValuesGo, hac, hany, hres]
          exact heq
        · cases hbtout : bt d2 (Function.update assign var (some value)) t2 with
          | crash => exact absurd hbtout (hbt3 _ _ _).1
          | fuelout => exact absurd hbtout (hbt3 _ _ _).2
          | done b3 d3 a3 t3 =>
            cases b3 with
            | true =>
              refine ⟨d3, a3, t3, ?_⟩
              simp only [tryValuesGo, hac, hbtout]
              simp [hany]
            | false =>
              obtain ⟨hd3, ht3⟩ := hbtf hbtout
              subst hd3
              subst ht3
              obtain ⟨d', a', t', heq⟩ := ih doms trail hcdoms hmem'
              refine ⟨d', a', t', ?_⟩
              simp only [tryValuesGo, hac, hbtout, hres]
              simp only [hany]
              simp only [if_true, Bool.false_eq_true, if_false]
              exact heq

/-- Completeness of the search: if some valid coloring inhabits the
current domains, `backtrack` (with enough recursion depth) succeeds. -/
theorem backtrackFuel_complete {k : ℤ} {vars : List ℤ} {adj : ℤ → List ℤ} {c : ℤ → ℤ}
    (hwf : GraphWF vars adj) (hcval : ValidColoring k vars adj c) :
    ∀ (fuel : ℕ) (doms : Dom) (assign : Assign) (trail : Trail),
      vars.length < fuel + assignedCount vars assign →
      (∀ v ∈ vars, c v ∈ doms v) →
      ∃ d' a' t',
        backtrackFuel vars adj fuel doms assign trail = .done true d' a' t' := by
  intro fuel
  induction fuel with
  | zero =>
    intro doms assign trail hmeas _
    have hle : assignedCount vars assign ≤ vars.length := List.countP_le_length _
    omega
  | succ fuel ih =>
    intro doms assign trail hmeas hcdoms
    by_cases hcomp : assignedCount vars assign = vars.length
    · refine ⟨doms, assign, trail, ?_⟩
      simp only [backtrackFuel]
      rw [if_pos hcomp]
    · cases hsel : selectVar vars doms assign with
      | none =>
        exfalso
        apply hcomp
        apply List.countP_eq_length.mpr
        intro v hv
        have hfalse := selectVar_none_iff.mp hsel v hv
        cases hval : assign v with
        | none => rw [hval] at hfalse; cases hfalse
        | some c0 => rfl
      | some var =>
        obtain ⟨hvmem, hvunas, _⟩ := selectVar_some_spec hsel
        have hvunas' : assign var = none := Option.isNone_iff_eq_none.mp hvunas
        obtain ⟨values, hord⟩ := @orderVals_isSome vars adj var doms assign
          hvmem (fun nb hnb => hwf.2.1 var nb hnb)
        have hcmem : c var ∈ values :=
          ((orderVals_some_spec hord).1 (c var)).mpr (hcdoms var hvmem)
        have hmeas' : ∀ value : ℤ, vars.length <
            fuel + assignedCount vars (Function.update assign var (some value)) := by
          intro value
          rw [assignedCount_update hwf.1 hvmem hvunas' value]
          omega
        obtain ⟨d', a', t', heq⟩ :=
          @tryValuesGo_complete k vars adj (backtrackFuel vars adj fuel) var assign c
            hwf hvmem hcval
            (fun hh => backtrackFuel_false_state fuel hh)
            (fun d0 t0 value => backtrackFuel_not_stuck hwf fuel d0
              (Function.update assign var (some value)) t0 (hmeas' value))
            (fun d0 t0 hc0 => ih d0 (Function.update assign var (some (c var))) t0
              (hmeas' (c var)) hc0)
            values doms trail hcdoms hcmem
        refine ⟨d', a', t', ?_⟩
        simp only [backtrackFuel]
        rw [if_neg hcomp]
        simp only [hsel, hord]
        exact heq

/-! ### The solver: totality, soundness, completeness -/

theorem assignedCount_none (vars : List ℤ) :
    assignedCount vars (fun _ => none) = 0 := by
  induction vars with
  | nil => rfl
  | cons a rest ih =>
    have hstep : assignedCount (a :: rest) (fun _ => none) =
        assignedCount rest (fun _ => none) +
          if (none : Option ℤ).isSome = true then 1 else 0 :=
      List.countP_cons _ _ _
    rw [hstep, ih]
    simp

theorem initQueue_arcs_wf {vars : List ℤ} {adj : ℤ → List ℤ}
    (hadj : ∀ v w, w ∈ adj v → w ∈ vars) :
    ∀ a ∈ initQueue vars adj, a.1 ∈ vars ∧ a.2 ∈ vars := by
  intro a ha
  obtain ⟨h1, h2⟩ := initQueue_mem ha
  exact ⟨h1, hadj a.1 a.2 h2⟩

theorem initQueue_arcs_adj {vars : List ℤ} {adj : ℤ → List ℤ} :
    ∀ a ∈ initQueue vars adj, a.2 ∈ adj a.1 :=
  fun _ ha => (initQueue_mem ha).2

theorem searchInv_initial {k : ℤ} {vars : List ℤ} {adj : ℤ → List ℤ} {d1 : Dom}
    (hsub : ∀ v, d1 v ⊆ (fun v => if v ∈ vars then Finset.Icc 1 k else ∅) v)
    (hne : ∀ v ∈ vars, (d1 v).Nonempty) :
    SearchInv k vars adj d1 (fun _ => none) := by
  refine ⟨?_, ?_, ?_, hne, ?_, ?_⟩
  · intro v hv
    have hs := hsub v
    simp only [if_pos hv] at hs
    exact hs
  · intro v hv
    cases hv
  · intro v c hc
    cases hc
  · intro u w cu cw _ hu _
    cases hu
  · intro u w c _ hw _
    cases hw

/-- The solver crashes only on ill-formed inputs: with the structural
invariants it always reaches `failure` or `success`. -/
theorem solve_cases {k : ℤ} {vars : List ℤ} {adj : ℤ → List ℤ}
    (hwf : GraphWF vars adj) :
    (∃ a, solve_graph_coloring k vars adj = .success a) ∨
    solve_graph_coloring k vars adj = .failure := by
  have hmeas : vars.length < vars.length + 1 + assignedCount vars (fun _ => none) := by
    omega
  cases hout : solve_graph_coloring k vars adj with
  | failure => exact Or.inr rfl
  | success a => exact Or.inl ⟨a, rfl⟩
  | crash =>
    exfalso
    simp only [solve_graph_coloring] at hout
    split at hout
    · rename_i hac
      exact ac3Fuel_no_crash (initQueue_arcs_wf hwf.2.1) hwf.2.1 hac
    · rename_i hac
      exact ac3Fuel_no_fuelout (by unfold ac3Bound; omega) hac
    · rename_i ok d1 t1 hac
      split at hout
      · cases hout
      · split at hout
        · cases hout
        · split at hout
          · rename_i hbt
            exact (backtrackFuel_not_stuck hwf (vars.length + 1) d1 (fun _ => none) t1
              hmeas).1 hbt
          · rename_i hbt
            cases hout
          · rename_i s2 d2 a2 t2 hbt
            split at hout
            · rcases finalize_cases d2 vars a2 with ⟨a', ha'⟩ | hf
              · rw [ha'] at hout; cases hout
              · rw [hf] at hout; cases hout
            · cases hout
  | fuelout =>
    exfalso
    simp only [solve_graph_coloring] at hout
    split at hout
    · rename_i hac
      cases hout
    · rename_i hac
      exact ac3Fuel_no_fuelout (by unfold ac3Bound; omega) hac
    · rename_i ok d1 t1 hac
      split at hout
      · cases hout
      · split at hout
        · cases hout
        · split at hout
          · rename_i hbt
            cases hout
          · rename_i hbt
            exact (backtrackFuel_not_stuck hwf (vars.length + 1) d1 (fun _ => none) t1
              hmeas).2 hbt
          · rename_i s2 d2 a2 t2 hbt
            split at hout
            · rcases finalize_cases d2 vars a2 with ⟨a', ha'⟩ | hf
              · rw [ha'] at hout; cases hout
              · rw [hf] at hout; cases hout
            · cases hout

/-- Soundness of the solver: a returned mapping is a complete valid
coloring with all colors in `[1, k]`. -/
theorem solve_sound {k : ℤ} {vars : List ℤ} {adj : ℤ → List ℤ} {a : Assign}
    (hwf : GraphWF vars adj)
    (h : solve_graph_coloring k vars adj = .success a) :
    (∀ v ∈ vars, ∃ cv, a v = some cv ∧ 1 ≤ cv ∧ cv ≤ k) ∧
    (∀ v, v ∉ vars → a v = none) ∧
    (∀ u w, u ∈ vars → w ∈ adj u →
      ∃ cu cw, a u = some cu ∧ a w = some cw ∧ cu ≠ cw) := by
  simp only [solve_graph_coloring] at h
  split at h
  · cases h
  · cases h
  · rename_i ok d1 t1 hac
    split at h
    · cases h
    · split at h
      · cases h
      · rename_i hany
        split at h
        · cases h
        · cases h
        · rename_i s2 d2 a2 t2 hbt
          split at h
          · rename_i hs2
            -- the search succeeded; the invariant holds in the final state
            have hne1 : ∀ v ∈ vars, (d1 v).Nonempty := by
              intro v hv
              apply Finset.card_ne_zero.mp
              intro hc
              apply hany
              rw [List.any_eq_true]
              exact ⟨v, hv, by simp [hc]⟩
            have hinv : SearchInv k vars adj d1 (fun _ => none) :=
              searchInv_initial (ac3Auto_doms_subset hac) hne1
            rw [hs2] at hbt
            obtain ⟨hinv', hcomp⟩ := backtrackFuel_sound hwf _ hinv hbt
            rw [finalize_complete vars hcomp] at h
            injection h with h
            subst h
            obtain ⟨hicc', hmem', hsing', _, hedge', _⟩ := hinv'
            have hcolor : ∀ v ∈ vars, ∃ cv, a2 v = some cv ∧ 1 ≤ cv ∧ cv ≤ k := by
              intro v hv
              obtain ⟨cv, hcv⟩ := Option.isSome_iff_exists.mp (hcomp v hv)
              refine ⟨cv, hcv, ?_⟩
              have hIcc : cv ∈ Finset.Icc (1 : ℤ) k := by
                apply hicc' v hv
                rw [hsing' v cv hcv]
                exact Finset.mem_singleton_self cv
              exact Finset.mem_Icc.mp hIcc
            refine ⟨hcolor, ?_, ?_⟩
            · intro v hv
              cases hav : a2 v with
              | none => rfl
              | some cv =>
                exact absurd (hmem' v (by rw [hav]; rfl)) hv
            · intro u w hu hw
              obtain ⟨cu, hcu, _⟩ := hcolor u hu
              obtain ⟨cw, hcw, _⟩ := hcolor w (hwf.2.1 u w hw)
              exact ⟨cu, cw, hcu, hcw, hedge' u w cu cw hw hcu hcw⟩
          · cases h

/-- Completeness of the solver: a satisfiable instance yields a mapping. -/
theorem solve_complete {k : ℤ} {vars : List ℤ} {adj : ℤ → List ℤ} {c : ℤ → ℤ}
    (hwf : GraphWF vars adj) (hc : ValidColoring k vars adj c) :
    ∃ a, solve_graph_coloring k vars adj = .success a := by
  have hc0 : ∀ v ∈ vars, c v ∈ (fun v => if v ∈ vars then Finset.Icc 1 k else ∅) v := by
    intro v hv
    simp only [if_pos hv]
    exact hc.1 v hv
  obtain ⟨ok, d1, t1, hac⟩ := ac3Auto_done
    (d := fun v => if v ∈ vars then Finset.Icc 1 k else ∅) (t := [])
    (initQueue_arcs_wf hwf.2.1) hwf.2.1
  obtain ⟨hc1, hok⟩ := ac3Auto_preserves_coloring hwf.2.2.1 hc.2
    initQueue_arcs_adj hc0 hac
  rw [hok] at hac
  have hany : (vars.any fun v => (d1 v).card == 0) = false := by
    rw [List.any_eq_false]
    intro v hv
    have hcard : (d1 v).card ≠ 0 := Finset.card_ne_zero.mpr ⟨c v, hc1 v hv⟩
    simpa using hcard
  have hne1 : ∀ v ∈ vars, (d1 v).Nonempty :=
    fun v hv => ⟨c v, hc1 v hv⟩
  have hinv : SearchInv k vars adj d1 (fun _ => none) :=
    searchInv_initial (ac3Auto_doms_subset hac) hne1
  have hmeas : vars.length < vars.length + 1 + assignedCount vars (fun _ => none) := by
    omega
  obtain ⟨d', a', t', hbt⟩ :=
    backtrackFuel_complete hwf hc (vars.length + 1) d1 (fun _ => none) t1 hmeas hc1
  obtain ⟨_, hcomp⟩ := backtrackFuel_sound hwf _ hinv hbt
  refine ⟨a', ?_⟩
  simp only [solve_graph_coloring, hac, hbt, hany]
  simp only [Bool.not_true, Bool.false_eq_true, if_false, if_true]
  exact finalize_complete vars hcomp

/-- A successful solve yields a valid coloring (as a total function). -/
theorem solve_success_coloring {k : ℤ} {vars : List ℤ} {adj : ℤ → List ℤ} {a : Assign}
    (hwf : GraphWF vars adj)
    (h : solve_graph_coloring k vars adj = .success a) :
    ValidColoring k vars adj (fun v => (a v).getD 1) := by
  obtain ⟨hcolor, _, hedge⟩ := solve_sound hwf h
  constructor
  · intro v hv
    obtain ⟨cv, hcv, h1, h2⟩ := hcolor v hv
    show (a v).getD 1 ∈ Finset.Icc 1 k
    rw [hcv]
    exact Finset.mem_Icc.mpr ⟨h1, h2⟩
  · intro u w hw
    by_cases hu : u ∈ vars
    · obtain ⟨cu, cw, hcu, hcw, hne⟩ := hedge u w hu hw
      show (a u).getD 1 ≠ (a w).getD 1
      rw [hcu, hcw]
      simpa using hne
    · exfalso
      rw [hwf.2.2.2.2 u hu] at hw
      cases hw

/-- Scenario: the empty variable set solves to the empty mapping. -/
theorem solve_empty_vars (k : ℤ) (adj : ℤ → List ℤ) :
    solve_graph_coloring k [] adj = .success assignNone := rfl

theorem graphWF_adjEdge : GraphWF [1, 2] adjEdge := by
  refine ⟨by decide, ?_, ?_, ?_, ?_⟩
  · intro v w hw
    by_cases h1 : v = 1
    · subst h1
      simp [adjEdge] at hw
      subst hw
      decide
    · by_cases h2 : v = 2
      · subst h2
        simp [adjEdge] at hw
        subst hw
        decide
      · simp [adjEdge, h1, h2] at hw
  · intro u w hw
    by_cases h1 : u = 1
    · subst h1
      simp [adjEdge] at hw
      subst hw
      decide
    · by_cases h2 : u = 2
      · subst h2
        simp [adjEdge] at hw
        subst hw
        decide
      · simp [adjEdge, h1, h2] at hw
  · intro v hv
    by_cases h1 : v = 1
    · subst h1
      simp [adjEdge] at hv
    · by_cases h2 : v = 2
      · subst h2
        simp [adjEdge] at hv
      · simp [adjEdge, h1, h2] at hv
  · intro v hv
    have h1 : v ≠ 1 := by
      intro h
      exact hv (by rw [h]; decide)
    have h2 : v ≠ 2 := by
      intro h
      exact hv (by rw [h]; decide)
    simp [adjEdge, h1, h2]

theorem graphWF_adjTriangle : GraphWF [1, 2, 3] adjTriangle := by
  refine ⟨by decide, ?_, ?_, ?_, ?_⟩
  · intro v w hw
    by_cases h1 : v = 1
    · subst h1
      simp [adjTriangle] at hw
      rcases hw with rfl | rfl <;> decide
    · by_cases h2 : v = 2
      · subst h2
        simp [adjTriangle] at hw
        rcases hw with rfl | rfl <;> decide
      · by_cases h3 : v = 3
        · subst h3
          simp [adjTriangle, h1, h2] at hw
          rcases hw with rfl | rfl <;> decide
        · simp [adjTriangle, h1, h2, h3] at hw
  · intro u w hw
    by_cases h1 : u = 1
    · subst h1
      simp [adjTriangle] at hw
      rcases hw with rfl | rfl <;> decide
    · by_cases h2 : u = 2
      · subst h2
        simp [adjTriangle] at hw
        rcases hw with rfl | rfl <;> decide
      · by_cases h3 : u = 3
        · subst h3
          simp [adjTriangle, h1, h2] at hw
          rcases hw with rfl | rfl <;> decide
        · simp [adjTriangle, h1, h2, h3] at hw
  · intro v hv
    by_cases h1 : v = 1
    · subst h1
      simp [adjTriangle] at hv
    · by_cases h2 : v = 2
      · subst h2
        simp [adjTriangle] at hv
      · by_cases h3 : v = 3
        · subst h3
          simp [adjTriangle, h1, h2] at hv
        · simp [adjTriangle, h1, h2, h3] at hv
  · intro v hv
    have h1 : v ≠ 1 := by
      intro h
      exact hv (by rw [h]; decide)
    have h2 : v ≠ 2 := by
      intro h
      exact hv (by rw [h]; decide)
    have h3 : v ≠ 3 := by
      intro h
      exact hv (by rw [h]; decide)
    simp [adjTriangle, h1, h2, h3]

/-- An odd cycle needs three colors: no valid 2-coloring of the triangle. -/
theorem no_two_coloring_triangle :
    ¬∃ c : ℤ → ℤ, ValidColoring 2 [1, 2, 3] adjTriangle c := by
  rintro ⟨c, hIcc, hne⟩
  have h1 := Finset.mem_Icc.mp (hIcc 1 (by decide))
  have h2 := Finset.mem_Icc.mp (hIcc 2 (by decide))
  have h3 := Finset.mem_Icc.mp (hIcc 3 (by decide))
  have e12 : c 1 ≠ c 2 := hne 1 2 (by decide)
  have e23 : c 2 ≠ c 3 := hne 2 3 (by decide)
  have e13 : c 1 ≠ c 3 := hne 1 3 (by decide)
  omega

/-- With every variable's domain empty, no revision ever fires (an empty
domain is not a singleton), so AC-3 just drains the queue and reports
success with the state unchanged. -/
theorem ac3Fuel_all_empty {vars : List ℤ} {adj : ℤ → List ℤ} {d : Dom} {t : Trail} :
    ∀ {n : ℕ} {q : List Arc},
      (∀ v ∈ vars, d v = ∅) →
      (∀ a ∈ q, a.1 ∈ vars ∧ a.2 ∈ vars) →
      q.length < n →
      ac3Fuel vars adj n q d t = .done true d t := by
  intro n
  induction n with
  | zero =>
    intro q _ _ hn
    omega
  | succ n ih =>
    intro q hempty harcs hn
    cases q with
    | nil => rfl
    | cons a q =>
      obtain ⟨Xi, Xj⟩ := a
      have hXi := (harcs (Xi, Xj) (List.mem_cons_self _ _)).1
      have hXj := (harcs (Xi, Xj) (List.mem_cons_self _ _)).2
      have hrev : revise vars Xi Xj d t = some (false, d, t) :=
        revise_of_no_singleton hXi hXj (fun y hy =>
          absurd ((hempty Xj hXj) ▸ hy).symm (Finset.singleton_ne_empty y))
      simp only [ac3Fuel, hrev]
      simp only [Bool.false_eq_true, if_false]
      exact ih hempty (fun a ha => harcs a (List.mem_cons_of_mem _ ha))
        (by simp only [List.length_cons] at hn; omega)

/-! ### Claim C1: validity and completeness of a returned mapping -/

/-- C1: whenever the solver returns a mapping on a structurally
well-formed input, that mapping assigns exactly one color to every
variable (and nothing else), every color lies in `[1, k]`, and the two
endpoints of every edge receive different colors. -/
theorem spec_C1_solution_valid (k : ℤ) (vars : List ℤ) (adj : ℤ → List ℤ)
    (a : Assign) (hwf : GraphWF vars adj)
    (h : solve_graph_coloring k vars adj = .success a) :
    (∀ v ∈ vars, ∃ cv, a v = some cv ∧ 1 ≤ cv ∧ cv ≤ k) ∧
    (∀ v, v ∉ vars → a v = none) ∧
    (∀ u w, u ∈ vars → w ∈ adj u →
      ∃ cu cw, a u = some cu ∧ a w = some cw ∧ cu ≠ cw) :=
  solve_sound hwf h

theorem graphWF_nil : GraphWF [] (fun _ => ([] : List ℤ)) :=
  ⟨List.nodup_nil, fun _ w hw => absurd hw (List.not_mem_nil w),
    fun _ w hw => absurd hw (List.not_mem_nil w),
    fun v => List.not_mem_nil v, fun _ _ => rfl⟩

theorem spec_C1_witness :
    (∀ v ∈ ([] : List ℤ), ∃ cv, assignNone v = some cv ∧ 1 ≤ cv ∧ cv ≤ 1) ∧
    (∀ v, v ∉ ([] : List ℤ) → assignNone v = none) ∧
    (∀ u w, u ∈ ([] : List ℤ) → w ∈ (fun _ => ([] : List ℤ)) u →
      ∃ cu cw, assignNone u = some cu ∧ assignNone w = some cw ∧ cu ≠ cw) :=
  spec_C1_solution_valid 1 [] (fun _ => []) assignNone graphWF_nil
    (solve_empty_vars 1 _)

/-! ### Claim C2: the solver finds a coloring whenever one exists -/

/-- C2: on structurally well-formed inputs the solver returns a
mapping whenever a valid `k`-coloring exists, hence returns the failure
signal only when no valid coloring exists; in particular, the 2-color
triangle instance ends in failure. -/
theorem spec_C2_solver_completeness (k : ℤ) (vars : List ℤ) (adj : ℤ → List ℤ)
    (hwf : GraphWF vars adj) :
    ((∃ c, ValidColoring k vars adj c) →
      ∃ a, solve_graph_coloring k vars adj = .success a) ∧
    (solve_graph_coloring k vars adj = .failure →
      ¬∃ c, ValidColoring k vars adj c) ∧
    solve_graph_coloring 2 [1, 2, 3] adjTriangle = .failure := by
  refine ⟨?_, ?_, ?_⟩
  · rintro ⟨c, hc⟩
    exact solve_complete hwf hc
  · rintro hfail ⟨c, hc⟩
    obtain ⟨a, ha⟩ := solve_complete hwf hc
    rw [ha] at hfail
    cases hfail
  · rcases solve_cases (k := 2) graphWF_adjTriangle with ⟨a, ha⟩ | hf
    · exact absurd ⟨_, solve_success_coloring graphWF_adjTriangle ha⟩
        no_two_coloring_triangle
    · exact hf

theorem spec_C2_witness :
    ((∃ c, ValidColoring 2 [1, 2] adjEdge c) →
      ∃ a, solve_graph_coloring 2 [1, 2] adjEdge = .success a) ∧
    (solve_graph_coloring 2 [1, 2] adjEdge = .failure →
      ¬∃ c, ValidColoring 2 [1, 2] adjEdge c) ∧
    solve_graph_coloring 2 [1, 2, 3] adjTriangle = .failure :=
  spec_C2_solver_completeness 2 [1, 2] adjEdge graphWF_adjEdge

/-! ### Claim C9: empty variable set -/

/-- C9: for every color budget, solving the empty variable set
produces the empty mapping as a success outcome, not the failure
signal. -/
theorem spec_C9_empty_variables (k : ℤ) (adj : ℤ → List ℤ) :
    solve_graph_coloring k [] adj = .success assignNone ∧
    ∀ v, assignNone v = none :=
  ⟨solve_empty_vars k adj, fun _ => rfl⟩

theorem spec_C9_witness :
    solve_graph_coloring 7 [] adjEdge = .success assignNone ∧
    ∀ v, assignNone v = none :=
  spec_C9_empty_variables 7 adjEdge

/-! ### Claim C10: nonpositive color budget -/

/-- C10: with `k ≤ 0` and a nonempty variable set every initial
domain `{1..k}` is empty, so the post-preprocessing empty-domain check
rejects before search begins and the solver returns the failure signal
regardless of the edges. -/
theorem spec_C10_nonpositive_k (k : ℤ) (vars : List ℤ) (adj : ℤ → List ℤ)
    (hk : k ≤ 0) (hne : vars ≠ [])
    (hadj : ∀ v w, w ∈ adj v → w ∈ vars) :
    solve_graph_coloring k vars adj = .failure := by
  have hicc : Finset.Icc (1 : ℤ) k = ∅ := Finset.Icc_eq_empty (by omega)
  have hempty : ∀ v ∈ vars,
      (fun v => if v ∈ vars then Finset.Icc (1 : ℤ) k else ∅) v = ∅ := by
    intro v hv
    simp only [if_pos hv]
    exact hicc
  have hac : ac3Auto vars adj (initQueue vars adj)
      (fun v => if v ∈ vars then Finset.Icc (1 : ℤ) k else ∅) [] =
      .done true (fun v => if v ∈ vars then Finset.Icc (1 : ℤ) k else ∅) [] :=
    ac3Fuel_all_empty hempty (initQueue_arcs_wf hadj) (by unfold ac3Bound; omega)
  obtain ⟨v0, hv0⟩ := List.exists_mem_of_ne_nil vars hne
  have hany : (vars.any fun v =>
      ((if v ∈ vars then Finset.Icc (1 : ℤ) k else ∅) : Finset ℤ).card == 0) = true := by
    rw [List.any_eq_true]
    refine ⟨v0, hv0, ?_⟩
    simp [if_pos hv0, hicc]
  simp only [solve_graph_coloring, hac, hany]
  simp

theorem spec_C10_witness :
    solve_graph_coloring 0 [1] (fun _ => []) = .failure :=
  spec_C10_nonpositive_k 0 [1] (fun _ => []) (by decide) (by decide)
    (fun _ w hw => absurd hw (List.not_mem_nil w))

end Theorems

end GraphCSP
